import Mathlib

/-!
# gopipe: a shallow embedding of the pipeline engine and its fan-out / fan-in helpers

Conventions of the embedding.

* A Go channel that is read until it reports closed is represented by the list of
  values its reader receives, in the order received.
* A value of the Go interface type `error` is an `Option E`: `none` is `nil`,
  `some e` is a non-nil error `e`.
* A stage function `func(ctx, in T) (T, error)` is a function `T → Except E T`
  (`err != nil` is `Except.error`).
* Goroutine interleavings are resolved by an oracle `sched : Nat → Nat`; every
  statement is proved for every oracle.
* Counters (`uint64` items processed, the `int` round-robin index) are natural
  numbers: they are incremented once per item received, so they stay below 2^63 on
  every stream a process can produce.
* The context passed by the caller is never cancelled. The `cancel()` of RunChan
  cancels the context RunChan derives, which its workers select on; the feeder
  goroutine of Run selects on the caller's context and is not reached by it.
-/

namespace Gopipe

/-! ## helpers.go -/

/-- FirstError ranges over the error stream and returns the first non-nil element,
or nil when the stream closes without one. -/
def FirstError {E : Type} : List (Option E) → Option E
  | [] => none
  | some e :: _ => some e
  | none :: rest => FirstError rest

/-- The value built by `errors.Join` of the Go standard library: it wraps the non-nil
errors it was given, in order. -/
structure joinError (E : Type) where
  errs : List E
deriving DecidableEq

/-- Go standard library `errors.Join`: nil values are discarded, the result is nil
when no non-nil value remains, otherwise a `joinError` wrapping the rest. -/
def errorsJoin {E : Type} (errs : List (Option E)) : Option (joinError E) :=
  let kept := errs.filterMap id
  if kept.length = 0 then none else some ⟨kept⟩

/-- JoinErrors collects the non-nil elements of the error stream into `list` and
returns nil when `len(list) == 0`, otherwise `errors.Join(list...)`. -/
def JoinErrors {E : Type} (errs : List (Option E)) : Option (joinError E) :=
  let list := errs.foldl
    (fun (acc : List E) e => match e with
      | some x => acc ++ [x]
      | none => acc) []
  if list.length = 0 then none else errorsJoin (list.map some)

/-! ## fan.go -/

/-- The clamp `if n <= 0 { n = 1 }` shared by both fan-out functions and by
`WithWorkers`. -/
def clampCount (n : Int) : Nat :=
  if n ≤ 0 then 1 else n.toNat

/-- FanOut: `n` unbuffered outputs; the broadcaster receives each input value and
sends it to every output in turn. The result lists what each output delivers. -/
def FanOut {T : Type} (xs : List T) (n : Int) : List (List T) :=
  xs.foldl (fun outs v => outs.map (fun ch => ch ++ [v])) (List.replicate (clampCount n) [])

/-- One iteration of the round-robin loop: `ch := outs[i%n]; i++; ch <- v`. -/
def rrSend {T : Type} (n : Nat) (st : Nat × List (List T)) (v : T) : Nat × List (List T) :=
  (st.1 + 1, st.2.modify (fun ch => ch ++ [v]) (st.1 % n))

/-- FanOutRoundRobin: `n` unbuffered outputs and a counter `i` starting at 0; each
input value goes to output `i % n`. The result lists what each output delivers. -/
def FanOutRoundRobin {T : Type} (xs : List T) (n : Int) : List (List T) :=
  (xs.foldl (rrSend (clampCount n)) (0, List.replicate (clampCount n) [])).2

/-- The indices of the input channels that still hold a value to forward. -/
def liveChans {T : Type} (chans : List (List T)) : List Nat :=
  (List.range chans.length).filter (fun i => (chans[i]?.bind List.head?).isSome)

/-- FanIn, one forwarding goroutine per input channel, all sending to one unbuffered
output. Each round the oracle picks which goroutine completes its next
receive-and-send; the merged stream ends when every input is exhausted. -/
def FanInFor {T : Type} (sched : Nat → Nat) : Nat → List (List T) → List T
  | 0, _ => []
  | fuel + 1, chans =>
    let live := liveChans chans
    match live[sched fuel % live.length]? with
    | none => []
    | some i =>
      match chans[i]? with
      | some (v :: rest) => v :: FanInFor sched fuel (chans.set i rest)
      | _ => []

/-- FanIn run until the merged output closes: the number of rounds is the total
number of values waiting on the inputs. -/
def FanIn {T : Type} (sched : Nat → Nat) (chans : List (List T)) : List T :=
  FanInFor sched (chans.map List.length).sum chans

/-- The values at positions congruent to `j` modulo `n`, in input order. -/
def everyNth {T : Type} (xs : List T) (n j : Nat) : List T :=
  (xs.enum.filter (fun q => q.1 % n = j)).map Prod.snd

/-! ## pineline.go: data model -/

/-- ErrorMode, `FailFast` (iota 0) or `Collect`. -/
inductive ErrorMode where
  | FailFast
  | Collect
deriving DecidableEq

/-- StageFn, `func(ctx, in T) (T, error)`: a non-nil error is `Except.error`. -/
abbrev StageFn (T E : Type) := T → Except E T

/-- The stage configuration; `workers` is a Go `int` that every constructor of the
package keeps at 1 or more (GOMAXPROCS is positive and `WithWorkers` clamps). -/
structure stageConfig where
  workers : Nat
  name : String
deriving DecidableEq

/-- StageOption, `func(*stageConfig)`, as a state transformer. -/
abbrev StageOption := stageConfig → stageConfig

/-- WithWorkers clamps `n <= 0` to 1. -/
def WithWorkers (n : Int) : StageOption :=
  fun c => { c with workers := clampCount n }

/-- WithStageName sets the display name. -/
def WithStageName (name : String) : StageOption :=
  fun c => { c with name := name }

/-- The options a caller can build: `stageConfig` is unexported, so every StageOption
comes from WithWorkers or WithStageName. -/
def packageOption (o : StageOption) : Prop :=
  (∃ n, o = WithWorkers n) ∨ (∃ name, o = WithStageName name)

/-- The pairing of a stage function with its configuration. -/
structure stageWrap (T E : Type) where
  fn : StageFn T E
  conf : stageConfig

/-- StageMetrics without its wall-clock `Duration` field. -/
structure StageMetrics where
  Name : String
  ItemsProcessed : Nat
deriving DecidableEq

/-- Pipeline; `bufSize` is the capacity given to `make(chan T, bufSize)`. -/
structure Pipeline (T E : Type) where
  stages : List (stageWrap T E)
  errMode : ErrorMode
  bufSize : Nat
  metrics : List StageMetrics

/-- New: FailFast, buffer size 0, no stage. -/
def New {T E : Type} : Pipeline T E :=
  { stages := [], errMode := ErrorMode.FailFast, bufSize := 0, metrics := [] }

/-- SetErrorMode. -/
def Pipeline.SetErrorMode {T E : Type} (p : Pipeline T E) (m : ErrorMode) : Pipeline T E :=
  { p with errMode := m }

/-- SetBufferSize. -/
def Pipeline.SetBufferSize {T E : Type} (p : Pipeline T E) (n : Nat) : Pipeline T E :=
  { p with bufSize := n }

/-- AddStage: the default configuration is `GOMAXPROCS(0)` workers (the parameter
`gomaxprocs`) and the name `stage#<len(p.stages)>`; the options are applied in order
and the stage is appended. -/
def Pipeline.AddStage {T E : Type} (p : Pipeline T E) (gomaxprocs : Nat) (fn : StageFn T E)
    (opts : List StageOption) : Pipeline T E :=
  let conf := opts.foldl (fun c o => o c)
    { workers := gomaxprocs, name := "stage#" ++ toString p.stages.length }
  { p with stages := p.stages ++ [{ fn := fn, conf := conf }] }

/-- What a caller observes of a Result: the values `Out` delivers until it is closed,
the values `Errors` delivers until it is closed, and the metrics slice stored in the
Result when RunChan returned. -/
structure Result (T E : Type) where
  Out : List T
  Errors : List (Option E)
  metrics : List StageMetrics

/-- Drain: every value of `Out`, then `FirstError(r.Errors)`. -/
def Result.Drain {T E : Type} (r : Result T E) : List T × Option E :=
  (r.Out, FirstError r.Errors)

/-- DrainMetrics returns the stored slice. -/
def Result.DrainMetrics {T E : Type} (r : Result T E) : List StageMetrics :=
  r.metrics

/-! ## pineline.go: Run and RunChan as a system of goroutines -/

/-- The state of a channel: buffered values in FIFO order and the closed flag. -/
structure Chan (T : Type) where
  buf : List T
  closed : Bool

/-- Where a stage worker stands in its loop: `recv` at the outer select, `got v` with
a value received and the stage function about to be called, `failing` in the FailFast
branch after the error was offered to `errs` and before `cancel()`, `send res` at the
inner select, `done` after `return`. -/
inductive WorkerPc (T : Type) where
  | recv
  | got (v : T)
  | failing
  | send (res : T)
  | done

/-- The state of one `Run`: the feeder goroutine of Run, the loop of RunChan with the
stage it is blocked on, the shared error channel and context, the trailing goroutine,
and a caller that reads `Out` and `Errors` once RunChan has returned. -/
structure State (T E : Type) where
  /-- values of `in` the feeder has not sent yet -/
  feed : List T
  /-- the feeder returned and its deferred `close(input)` ran -/
  inputClosed : Bool
  /-- the loop variable `i` of RunChan; `len(p.stages)` once the loop is over -/
  ix : Nat
  /-- the channel `curr` once it has been reassigned (`ix > 0`); while `ix = 0`,
  `curr` is the unbuffered `input` channel, described by `feed` and `inputClosed` -/
  curr : Chan T
  /-- the workers of stage `ix` -/
  workers : List (WorkerPc T)
  /-- the channel `out` of stage `ix` -/
  out : Chan T
  /-- the counter `processed` of stage `ix` -/
  processed : Nat
  /-- the buffer of `errs`, capacity 64 -/
  errs : List E
  errsClosed : Bool
  /-- the derived context has been cancelled -/
  cancelled : Bool
  /-- the slice `p.metrics` -/
  metrics : List StageMetrics
  /-- the goroutine started after the loop has finished -/
  trailingDone : Bool
  /-- values the caller has received from `Result.Out` -/
  outSeen : List T
  /-- the caller has seen `Result.Out` closed -/
  outDone : Bool
  /-- values the caller has received from `Result.Errors` -/
  errSeen : List E
  /-- the caller has seen `Result.Errors` closed -/
  errDone : Bool
  /-- the record of stage-function calls, (stage index, argument), in call order; it
  is not read by any transition -/
  calls : List (Nat × T)

/-- The atomic actions of the goroutines. -/
inductive Ev where
  | feederClose
  | workerRecv (w : Nat)
  | workerEnd (w : Nat)
  | workerCancel (w : Nat)
  | workerCall (w : Nat)
  | workerFail (w : Nat)
  | workerSend (w : Nat)
  | closerClose
  | finalRecv
  | finalDone
  | trailRecv
  | trailEnd
  | readOut
  | readOutEnd
  | readErr
  | readErrEnd
deriving DecidableEq

/-- A receive from `curr` that yields a value: on the unbuffered `input` channel it
is a rendezvous with the feeder standing at `input <- v`; on a former `out` channel it
takes the head of the buffer. -/
def recvCurr {T E : Type} (s : State T E) : Option (T × State T E) :=
  if s.ix = 0 then
    if s.inputClosed then none
    else
      match s.feed with
      | [] => none
      | v :: rest => some (v, { s with feed := rest })
  else
    match s.curr.buf with
    | [] => none
    | v :: rest => some (v, { s with curr := { s.curr with buf := rest } })

/-- A receive from `curr` reports closed (`ok == false`, end of `range`). -/
def currEnded {T E : Type} (s : State T E) : Bool :=
  if s.ix = 0 then s.inputClosed else s.curr.closed && s.curr.buf.isEmpty

/-- The test `pc == done`. -/
def WorkerPc.isDone {T : Type} : WorkerPc T → Bool
  | WorkerPc.done => true
  | _ => false

/-- The non-blocking send `select { case errs <- err: default: }` on a channel of
capacity 64. -/
def offerErr {E : Type} (errs : List E) (e : E) : List E :=
  if errs.length < 64 then errs ++ [e] else errs

/-- One atomic action; `none` when the action is not possible in the state. -/
def step {T E : Type} (p : Pipeline T E) (s : State T E) : Ev → Option (State T E)
  | Ev.feederClose =>
    -- Run: the loop over `in` is finished and the deferred `close(input)` runs; the
    -- other case of the feeder's select, `<-ctx.Done()`, waits on the caller's
    -- context, which is never cancelled
    if !s.inputClosed && s.feed.isEmpty then
      some { s with inputClosed := true }
    else none
  | Ev.workerRecv w =>
    -- `case v, ok := <-curr` with ok
    if s.ix < p.stages.length then
      match s.workers[w]? with
      | some WorkerPc.recv =>
        match recvCurr s with
        | some (v, s1) => some { s1 with workers := s1.workers.set w (WorkerPc.got v) }
        | none => none
      | _ => none
    else none
  | Ev.workerEnd w =>
    -- `case v, ok := <-curr` with !ok: return
    if s.ix < p.stages.length then
      match s.workers[w]? with
      | some WorkerPc.recv =>
        if currEnded s then some { s with workers := s.workers.set w WorkerPc.done }
        else none
      | _ => none
    else none
  | Ev.workerCancel w =>
    -- `case <-ctx.Done(): return` of the outer or of the inner select
    if s.ix < p.stages.length && s.cancelled then
      match s.workers[w]? with
      | some WorkerPc.recv => some { s with workers := s.workers.set w WorkerPc.done }
      | some (WorkerPc.send _) => some { s with workers := s.workers.set w WorkerPc.done }
      | _ => none
    else none
  | Ev.workerCall w =>
    -- `res, err := stage.fn(ctx, v)` and what follows up to the next select
    match s.workers[w]?, p.stages[s.ix]? with
    | some (WorkerPc.got v), some st =>
      match st.fn v with
      | Except.error e =>
        some { s with
          errs := offerErr s.errs e
          workers := s.workers.set w
            (if p.errMode = ErrorMode.FailFast then WorkerPc.failing else WorkerPc.recv)
          calls := s.calls ++ [(s.ix, v)] }
      | Except.ok res =>
        some { s with
          processed := s.processed + 1
          workers := s.workers.set w (WorkerPc.send res)
          calls := s.calls ++ [(s.ix, v)] }
    | _, _ => none
  | Ev.workerFail w =>
    -- FailFast: `cancel(); return`
    if s.ix < p.stages.length then
      match s.workers[w]? with
      | some WorkerPc.failing =>
        some { s with cancelled := true, workers := s.workers.set w WorkerPc.done }
      | _ => none
    else none
  | Ev.workerSend w =>
    -- `case out <- res`: with capacity 0 the value is handed to the goroutine that
    -- ranges over `out` (the metrics finalizer, which discards it); otherwise it is
    -- buffered when there is room
    if s.ix < p.stages.length then
      match s.workers[w]? with
      | some (WorkerPc.send res) =>
        if p.bufSize = 0 then
          some { s with workers := s.workers.set w WorkerPc.recv }
        else if s.out.buf.length < p.bufSize then
          some { s with
            out := { s.out with buf := s.out.buf ++ [res] }
            workers := s.workers.set w WorkerPc.recv }
        else none
      | _ => none
    else none
  | Ev.closerClose =>
    -- `wg.Wait(); close(out)`
    if s.ix < p.stages.length && s.workers.all WorkerPc.isDone && !s.out.closed then
      some { s with out := { s.out with closed := true } }
    else none
  | Ev.finalRecv =>
    -- the finalizer: one iteration of `for range outc {}`
    if s.ix < p.stages.length then
      match s.out.buf with
      | [] => none
      | _ :: rest => some { s with out := { s.out with buf := rest } }
    else none
  | Ev.finalDone =>
    -- the finalizer leaves its range loop, appends the metrics and closes `doneCh`;
    -- RunChan wakes up, sets `curr = out` and wires the next stage or leaves the loop
    match p.stages[s.ix]? with
    | some st =>
      if s.out.closed && s.out.buf.isEmpty then
        let m : StageMetrics := { Name := st.conf.name, ItemsProcessed := s.processed }
        match p.stages[s.ix + 1]? with
        | some nxt =>
          some { s with
            metrics := s.metrics ++ [m]
            curr := s.out
            ix := s.ix + 1
            workers := List.replicate nxt.conf.workers WorkerPc.recv
            out := { buf := [], closed := false }
            processed := 0 }
        | none =>
          some { s with
            metrics := s.metrics ++ [m]
            curr := s.out
            ix := s.ix + 1 }
      else none
    | none => none
  | Ev.trailRecv =>
    -- the trailing goroutine: one iteration of `for range curr {}`
    if s.ix = p.stages.length && !s.trailingDone then
      match recvCurr s with
      | some (_, s1) => some s1
      | none => none
    else none
  | Ev.trailEnd =>
    -- the trailing goroutine: `cancel(); close(errs)`
    if s.ix = p.stages.length && !s.trailingDone && currEnded s then
      some { s with cancelled := true, errsClosed := true, trailingDone := true }
    else none
  | Ev.readOut =>
    -- the caller receives a value from `Result.Out`
    if s.ix = p.stages.length && !s.outDone then
      match recvCurr s with
      | some (v, s1) => some { s1 with outSeen := s1.outSeen ++ [v] }
      | none => none
    else none
  | Ev.readOutEnd =>
    if s.ix = p.stages.length && !s.outDone && currEnded s then
      some { s with outDone := true }
    else none
  | Ev.readErr =>
    -- the caller receives a value from `Result.Errors`
    if s.ix = p.stages.length && !s.errDone then
      match s.errs with
      | [] => none
      | e :: rest => some { s with errs := rest, errSeen := s.errSeen ++ [e] }
    else none
  | Ev.readErrEnd =>
    if s.ix = p.stages.length && !s.errDone && s.errs.isEmpty && s.errsClosed then
      some { s with errDone := true }
    else none

/-- Every action a state could take: the actions of the single goroutines and, for
each worker slot, the worker actions. -/
def events {T E : Type} (s : State T E) : List Ev :=
  [Ev.feederClose, Ev.closerClose, Ev.finalRecv, Ev.finalDone, Ev.trailRecv, Ev.trailEnd,
    Ev.readOut, Ev.readOutEnd, Ev.readErr, Ev.readErrEnd] ++
  (List.range s.workers.length).flatMap (fun w =>
    [Ev.workerRecv w, Ev.workerEnd w, Ev.workerCancel w, Ev.workerCall w, Ev.workerFail w,
      Ev.workerSend w])

/-- The states reachable in one action. -/
def succs {T E : Type} (p : Pipeline T E) (s : State T E) : List (State T E) :=
  (events s).filterMap (step p s)

/-- The scheduler: the oracle value `k` selects one of the possible actions; `none`
when no action is possible. -/
def next {T E : Type} (p : Pipeline T E) (k : Nat) (s : State T E) : Option (State T E) :=
  (succs p s)[k % (succs p s).length]?

/-- At most `n` scheduled actions from `s`, stopping early when none is possible; the
oracle is asked with the number of actions still allowed. -/
def runFor {T E : Type} (p : Pipeline T E) (sched : Nat → Nat) : Nat → State T E → State T E
  | 0, s => s
  | n + 1, s =>
    match next p (sched n) s with
    | some s1 => runFor p sched n s1
    | none => s

/-- The state in which RunChan blocks for the first time (on `<-doneCh` of stage 0,
or at its return when there is no stage): the feeder holds all of `in`, `errs` is
empty, `p.metrics` has just been reset to an empty slice, the workers of stage 0 are
at their select. -/
def initState {T E : Type} (p : Pipeline T E) (xs : List T) : State T E :=
  { feed := xs
    inputClosed := false
    ix := 0
    curr := { buf := [], closed := false }
    workers :=
      match p.stages[0]? with
      | some st => List.replicate st.conf.workers WorkerPc.recv
      | none => []
    out := { buf := [], closed := false }
    processed := 0
    errs := []
    errsClosed := false
    cancelled := false
    metrics := []
    trailingDone := false
    outSeen := []
    outDone := false
    errSeen := []
    errDone := false
    calls := [] }

/-- The remaining work of a worker, in actions. -/
def wcost {T : Type} : WorkerPc T → Nat
  | WorkerPc.done => 0
  | WorkerPc.failing => 1
  | WorkerPc.recv => 2
  | WorkerPc.send _ => 4
  | WorkerPc.got _ => 5

/-- The actions a stage that is not wired yet will need before any value reaches it. -/
def stageCost {T E : Type} (st : stageWrap T E) : Nat :=
  2 * st.conf.workers + 3

/-- One pending action while the flag is not set. -/
def flag (b : Bool) : Nat :=
  if b then 0 else 1

/-- The pending `close(out)` of the stage being run. -/
def closerCost {T E : Type} (p : Pipeline T E) (ix : Nat) (closed : Bool) : Nat :=
  if ix < p.stages.length ∧ closed = false then 1 else 0

/-- The pending metrics append of the stage being run. -/
def finalCost {T E : Type} (p : Pipeline T E) (ix : Nat) : Nat :=
  if ix < p.stages.length then 1 else 0

/-- The cost of the stages after stage `ix`. -/
def futureCost {T E : Type} (p : Pipeline T E) (ix : Nat) : Nat :=
  ((p.stages.drop (ix + 1)).map stageCost).sum

/-- A bound on the number of actions still possible from a state. -/
def measure {T E : Type} (p : Pipeline T E) (s : State T E) : Nat :=
  4 * s.feed.length + flag s.inputClosed + 4 * s.curr.buf.length
    + (s.workers.map wcost).sum
    + closerCost p s.ix s.out.closed
    + s.out.buf.length
    + finalCost p s.ix
    + futureCost p s.ix
    + s.errs.length
    + flag s.trailingDone
    + flag s.outDone
    + flag s.errDone

/-- RunChan has returned, the trailing goroutine has finished and the caller has read
both channels up to their close. Nothing waits for the feeder of Run: after a
FailFast cancellation it can stay blocked on `input <- v` for ever. -/
def finished {T E : Type} (p : Pipeline T E) (s : State T E) : Bool :=
  s.ix = p.stages.length && s.trailingDone && s.outDone && s.errDone

/-- The state at the end of a run under the interleaving chosen by `sched`. -/
def execute {T E : Type} (sched : Nat → Nat) (p : Pipeline T E) (xs : List T) : State T E :=
  runFor p sched (measure p (initState p xs)) (initState p xs)

/-- RunChan on the channel `input` that the goroutine of Run feeds with the values
`feed`, followed by a caller that reads `Out` and `Errors` until they are closed. The
Result holds what that caller received and the metrics slice RunChan stored in it;
`none` if RunChan, the trailing goroutine or the caller never finishes. -/
def Pipeline.RunChan {T E : Type} (p : Pipeline T E) (sched : Nat → Nat) (feed : List T) :
    Option (Result T E) :=
  let s := execute sched p feed
  if finished p s then
    some { Out := s.outSeen, Errors := s.errSeen.map some, metrics := s.metrics }
  else none

/-- Run: start the goroutine that sends the values of `in` on `input` and then closes
it, and return `p.RunChan(ctx, input)`. -/
def Pipeline.Run {T E : Type} (p : Pipeline T E) (sched : Nat → Nat) (xs : List T) :
    Option (Result T E) :=
  p.RunChan sched xs

/-- The pipeline after a run: RunChan has overwritten `p.metrics`. -/
def Pipeline.afterRun {T E : Type} (p : Pipeline T E) (sched : Nat → Nat) (xs : List T) :
    Pipeline T E :=
  { p with metrics := (execute sched p xs).metrics }

/-- The transition relation of `step`, one constructor per way an action can succeed. -/
inductive Step {T E : Type} (p : Pipeline T E) : State T E → State T E → Prop where
  | feederClose (s : State T E)
      (h1 : s.inputClosed = false) (h2 : s.feed = []) :
      Step p s { s with inputClosed := true }
  | workerRecvIn (s : State T E) (w : Nat) (v : T) (rest : List T)
      (hr : s.ix < p.stages.length) (hw : s.workers[w]? = some WorkerPc.recv)
      (h0 : s.ix = 0) (hic : s.inputClosed = false) (hf : s.feed = v :: rest) :
      Step p s { s with feed := rest, workers := s.workers.set w (WorkerPc.got v) }
  | workerRecvCh (s : State T E) (w : Nat) (v : T) (rest : List T)
      (hr : s.ix < p.stages.length) (hw : s.workers[w]? = some WorkerPc.recv)
      (h0 : s.ix ≠ 0) (hf : s.curr.buf = v :: rest) :
      Step p s { s with
        curr := { s.curr with buf := rest }
        workers := s.workers.set w (WorkerPc.got v) }
  | workerEnd (s : State T E) (w : Nat)
      (hr : s.ix < p.stages.length) (hw : s.workers[w]? = some WorkerPc.recv)
      (he : currEnded s = true) :
      Step p s { s with workers := s.workers.set w WorkerPc.done }
  | workerCancelRecv (s : State T E) (w : Nat)
      (hr : s.ix < p.stages.length) (hc : s.cancelled = true)
      (hw : s.workers[w]? = some WorkerPc.recv) :
      Step p s { s with workers := s.workers.set w WorkerPc.done }
  | workerCancelSend (s : State T E) (w : Nat) (res : T)
      (hr : s.ix < p.stages.length) (hc : s.cancelled = true)
      (hw : s.workers[w]? = some (WorkerPc.send res)) :
      Step p s { s with workers := s.workers.set w WorkerPc.done }
  | workerCallErr (s : State T E) (w : Nat) (v : T) (st : stageWrap T E) (e : E)
      (hw : s.workers[w]? = some (WorkerPc.got v)) (hs : p.stages[s.ix]? = some st)
      (hf : st.fn v = Except.error e) :
      Step p s { s with
        errs := offerErr s.errs e
        workers := s.workers.set w
          (if p.errMode = ErrorMode.FailFast then WorkerPc.failing else WorkerPc.recv)
        calls := s.calls ++ [(s.ix, v)] }
  | workerCallOk (s : State T E) (w : Nat) (v : T) (st : stageWrap T E) (res : T)
      (hw : s.workers[w]? = some (WorkerPc.got v)) (hs : p.stages[s.ix]? = some st)
      (hf : st.fn v = Except.ok res) :
      Step p s { s with
        processed := s.processed + 1
        workers := s.workers.set w (WorkerPc.send res)
        calls := s.calls ++ [(s.ix, v)] }
  | workerFail (s : State T E) (w : Nat)
      (hr : s.ix < p.stages.length) (hw : s.workers[w]? = some WorkerPc.failing) :
      Step p s { s with cancelled := true, workers := s.workers.set w WorkerPc.done }
  | workerSendDirect (s : State T E) (w : Nat) (res : T)
      (hr : s.ix < p.stages.length) (hw : s.workers[w]? = some (WorkerPc.send res))
      (hb : p.bufSize = 0) :
      Step p s { s with workers := s.workers.set w WorkerPc.recv }
  | workerSendBuf (s : State T E) (w : Nat) (res : T)
      (hr : s.ix < p.stages.length) (hw : s.workers[w]? = some (WorkerPc.send res))
      (hb : p.bufSize ≠ 0) (hroom : s.out.buf.length < p.bufSize) :
      Step p s { s with
        out := { s.out with buf := s.out.buf ++ [res] }
        workers := s.workers.set w WorkerPc.recv }
  | closerClose (s : State T E)
      (hr : s.ix < p.stages.length) (hd : ∀ pc ∈ s.workers, pc = WorkerPc.done)
      (hc : s.out.closed = false) :
      Step p s { s with out := { s.out with closed := true } }
  | finalRecv (s : State T E) (v : T) (rest : List T)
      (hr : s.ix < p.stages.length) (hb : s.out.buf = v :: rest) :
      Step p s { s with out := { s.out with buf := rest } }
  | finalNext (s : State T E) (st nxt : stageWrap T E)
      (hs : p.stages[s.ix]? = some st) (hc : s.out.closed = true) (hb : s.out.buf = [])
      (hn : p.stages[s.ix + 1]? = some nxt) :
      Step p s { s with
        metrics := s.metrics ++ [{ Name := st.conf.name, ItemsProcessed := s.processed }]
        curr := s.out
        ix := s.ix + 1
        workers := List.replicate nxt.conf.workers WorkerPc.recv
        out := { buf := [], closed := false }
        processed := 0 }
  | finalLast (s : State T E) (st : stageWrap T E)
      (hs : p.stages[s.ix]? = some st) (hc : s.out.closed = true) (hb : s.out.buf = [])
      (hn : p.stages[s.ix + 1]? = none) :
      Step p s { s with
        metrics := s.metrics ++ [{ Name := st.conf.name, ItemsProcessed := s.processed }]
        curr := s.out
        ix := s.ix + 1 }
  | trailRecvIn (s : State T E) (v : T) (rest : List T)
      (hr : s.ix = p.stages.length) (ht : s.trailingDone = false)
      (h0 : s.ix = 0) (hic : s.inputClosed = false) (hf : s.feed = v :: rest) :
      Step p s { s with feed := rest }
  | trailRecvCh (s : State T E) (v : T) (rest : List T)
      (hr : s.ix = p.stages.length) (ht : s.trailingDone = false)
      (h0 : s.ix ≠ 0) (hf : s.curr.buf = v :: rest) :
      Step p s { s with curr := { s.curr with buf := rest } }
  | trailEnd (s : State T E)
      (hr : s.ix = p.stages.length) (ht : s.trailingDone = false)
      (he : currEnded s = true) :
      Step p s { s with cancelled := true, errsClosed := true, trailingDone := true }
  | readOutIn (s : State T E) (v : T) (rest : List T)
      (hr : s.ix = p.stages.length) (ho : s.outDone = false)
      (h0 : s.ix = 0) (hic : s.inputClosed = false) (hf : s.feed = v :: rest) :
      Step p s { s with feed := rest, outSeen := s.outSeen ++ [v] }
  | readOutCh (s : State T E) (v : T) (rest : List T)
      (hr : s.ix = p.stages.length) (ho : s.outDone = false)
      (h0 : s.ix ≠ 0) (hf : s.curr.buf = v :: rest) :
      Step p s { s with curr := { s.curr with buf := rest }, outSeen := s.outSeen ++ [v] }
  | readOutEnd (s : State T E)
      (hr : s.ix = p.stages.length) (ho : s.outDone = false) (he : currEnded s = true) :
      Step p s { s with outDone := true }
  | readErr (s : State T E) (e : E) (rest : List E)
      (hr : s.ix = p.stages.length) (hd : s.errDone = false) (he : s.errs = e :: rest) :
      Step p s { s with errs := rest, errSeen := s.errSeen ++ [e] }
  | readErrEnd (s : State T E)
      (hr : s.ix = p.stages.length) (hd : s.errDone = false) (he : s.errs = [])
      (hc : s.errsClosed = true) :
      Step p s { s with errDone := true }

/-- Facts that hold in every reachable state: the loop index stays within the stage
list; once `curr` has been reassigned it is a closed, empty channel; the trailing
goroutine has cancelled the context and closed `errs` when it is done. -/
def BasicInv {T E : Type} (p : Pipeline T E) (s : State T E) : Prop :=
  s.ix ≤ p.stages.length ∧
  (s.ix ≠ 0 → s.curr.closed = true ∧ s.curr.buf = []) ∧
  (s.trailingDone = true → s.errsClosed = true ∧ s.cancelled = true)

/-- The metrics slice holds one entry per finished stage, named in stage order. -/
def MetricsNamed {T E : Type} (p : Pipeline T E) (s : State T E) : Prop :=
  s.metrics.map (fun m => m.Name) = (p.stages.take s.ix).map (fun st => st.conf.name)

/-- The workers of a stage after the first never hold a value, and its counter is 0. -/
def LaterIdle {T E : Type} (p : Pipeline T E) (s : State T E) : Prop :=
  s.ix ≠ 0 → s.ix < p.stages.length →
    (∀ pc ∈ s.workers, pc = WorkerPc.recv ∨ pc = WorkerPc.done) ∧ s.processed = 0

/-- Every recorded stage-function call was made by stage 0. -/
def CallsFirst {T E : Type} (s : State T E) : Prop :=
  ∀ c ∈ s.calls, c.1 = 0

/-- Every metrics entry after the first reports 0 items. -/
def LaterZero {T E : Type} (s : State T E) : Prop :=
  ∀ m ∈ s.metrics.drop 1, m.ItemsProcessed = 0

/-- With at least one stage the caller has received nothing from `Out`. -/
def OutUnseen {T E : Type} (p : Pipeline T E) (s : State T E) : Prop :=
  p.stages ≠ [] → s.outSeen = []

/-- The channel `out` of the running stage is closed only after all its workers
returned. -/
def ClosedDone {T E : Type} (p : Pipeline T E) (s : State T E) : Prop :=
  s.ix < p.stages.length → s.out.closed = true → ∀ pc ∈ s.workers, pc = WorkerPc.done

/-- The caller sees `Errors` closed only after RunChan returned and with nothing left
in the buffer; before the return it has received no error. -/
def ErrDrained {T E : Type} (p : Pipeline T E) (s : State T E) : Prop :=
  (s.errDone = true → s.errs = [] ∧ s.ix = p.stages.length) ∧
  (s.ix < p.stages.length → s.errSeen = [])

/-- The invariants that do not depend on the stage functions. -/
def ShapeInv {T E : Type} (p : Pipeline T E) (s : State T E) : Prop :=
  BasicInv p s ∧ MetricsNamed p s ∧ LaterIdle p s ∧ CallsFirst s ∧ LaterZero s ∧
    OutUnseen p s ∧ ClosedDone p s ∧ ErrDrained p s

/-- The value a worker holds between its receive and the call of the stage function. -/
def heldOf {T : Type} : WorkerPc T → Multiset T
  | WorkerPc.got v => {v}
  | _ => 0

/-- The values held by the workers, as a multiset. -/
def held {T : Type} (ws : List (WorkerPc T)) : Multiset T :=
  (ws.map heldOf).sum

/-- The stage function returns a nil error on `v`. -/
def succeeded {T E : Type} (fn : StageFn T E) (v : T) : Bool :=
  match fn v with
  | Except.ok _ => true
  | Except.error _ => false

/-- The number of values of `l` on which the stage function succeeds. -/
def okCount {T E : Type} (fn : StageFn T E) (l : List T) : Nat :=
  l.countP (succeeded fn)

/-- The errors the stage function returns on the values of `l`, in the order of `l`. -/
def failsOf {T E : Type} (fn : StageFn T E) (l : List T) : List E :=
  l.filterMap (fun v =>
    match fn v with
    | Except.error e => some e
    | Except.ok _ => none)

/-- The bookkeeping of stage 0 with stage function `fn`: every input value is in the
call record, held by a worker, or still with the feeder; the counter and the first
metrics entry count the recorded calls that succeeded; the error channel and what the
caller read from it are the first 64 errors of the recorded calls. -/
def Account {T E : Type} (fn : StageFn T E) (xs : List T) (s : State T E) : Prop :=
  Multiset.ofList (s.calls.map Prod.snd) + held s.workers + Multiset.ofList s.feed
    = Multiset.ofList xs ∧
  (s.ix = 0 → s.processed = okCount fn (s.calls.map Prod.snd)) ∧
  (s.ix ≠ 0 → ∃ m0, s.metrics.head? = some m0 ∧
    m0.ItemsProcessed = okCount fn (s.calls.map Prod.snd)) ∧
  s.errSeen ++ s.errs = (failsOf fn (s.calls.map Prod.snd)).take 64

/-- While stage 0 runs and no worker can take the FailFast branch: the context is not
cancelled, the feeder closes `input` only after its last send, a worker returns only
after `input` is closed, and there is at least one worker. -/
def FirstLive {T E : Type} (s : State T E) : Prop :=
  s.ix = 0 →
    s.cancelled = false ∧ (∀ pc ∈ s.workers, pc ≠ WorkerPc.failing) ∧
    (s.inputClosed = true → s.feed = []) ∧
    ((∃ pc ∈ s.workers, pc = WorkerPc.done) → s.inputClosed = true) ∧
    s.workers ≠ []

/-- Once stage 0 is over, the recorded calls are the input values, each once. -/
def CallsAll {T E : Type} (xs : List T) (s : State T E) : Prop :=
  s.ix ≠ 0 → Multiset.ofList (s.calls.map Prod.snd) = Multiset.ofList xs

/-! ## The pipelines of pineline_test.go -/

/-- The stage of TestPipeline_Basic that doubles its input. -/
def double : StageFn Int String :=
  fun x => Except.ok (x * 2)

/-- The stage of TestPipeline_Basic that adds one. -/
def plus1 : StageFn Int String :=
  fun x => Except.ok (x + 1)

/-- The first stage of TestPipeline_FailFast. -/
def identity : StageFn Int String :=
  fun x => Except.ok x

/-- The second stage of TestPipeline_FailFast: fails on 3. -/
def failOnThree : StageFn Int String :=
  fun x => if x = 3 then Except.error "boom" else Except.ok x

/-- The stage of TestPipeline_Collect: fails on even inputs, else multiplies by 10. -/
def failIfEven : StageFn Int String :=
  fun x => if x % 2 = 0 then Except.error ("bad " ++ toString x) else Except.ok (x * 10)

/-- The stage of TestPipeline_Metrics. -/
def inc : StageFn Int String :=
  fun x => Except.ok (x + 1)

/-- The pipeline of TestPipeline_Basic; `procs` is the value of `GOMAXPROCS(0)`. -/
def basicPipeline (procs : Nat) : Pipeline Int String :=
  (((New.SetBufferSize 8).AddStage procs double [WithStageName "double", WithWorkers 2]).AddStage
    procs plus1 [WithStageName "plus1"])

/-- The pipeline of TestPipeline_FailFast. -/
def failFastPipeline (procs : Nat) : Pipeline Int String :=
  (((New.SetErrorMode ErrorMode.FailFast).AddStage procs identity []).AddStage
    procs failOnThree [])

/-- The pipeline of TestPipeline_Collect. -/
def collectPipeline (procs : Nat) : Pipeline Int String :=
  (New.SetErrorMode ErrorMode.Collect).AddStage procs failIfEven []

/-- The pipeline of TestPipeline_Metrics. -/
def metricsPipeline (procs : Nat) : Pipeline Int String :=
  New.AddStage procs inc [WithStageName "inc"]

/-! ## Theorems: helpers.go -/

theorem foldl_keep_eq {E : Type} (es : List (Option E)) (acc : List E) :
    es.foldl (fun (acc : List E) e => match e with
      | some x => acc ++ [x]
      | none => acc) acc = acc ++ es.filterMap id := by
  induction es generalizing acc with
  | nil => simp
  | cons e rest ih =>
    cases e with
    | none => simpa using ih acc
    | some x => simpa using ih (acc ++ [x])

theorem filterMap_id_map_some {E : Type} (l : List E) :
    (l.map some).filterMap id = l := by
  induction l with
  | nil => rfl
  | cons a rest ih => simp [ih]

theorem JoinErrors_eq {E : Type} (es : List (Option E)) :
    JoinErrors es =
      if (es.filterMap id).length = 0 then none else some (joinError.mk (es.filterMap id)) := by
  unfold JoinErrors errorsJoin
  simp only [foldl_keep_eq, List.nil_append, filterMap_id_map_some]
  split <;> rfl

theorem filterMap_id_eq_nil {E : Type} (es : List (Option E)) :
    es.filterMap id = [] ↔ ∀ e ∈ es, e = none := by
  induction es with
  | nil => simp
  | cons e rest ih =>
    cases e with
    | none => simp [ih]
    | some x => simp

theorem FirstError_eq_none {E : Type} (es : List (Option E)) :
    FirstError es = none ↔ ∀ e ∈ es, e = none := by
  induction es with
  | nil => simp [FirstError]
  | cons e rest ih =>
    cases e with
    | none => simp [FirstError, ih]
    | some x => simp [FirstError]

theorem FirstError_eq_some {E : Type} (es : List (Option E)) (e : E)
    (h : FirstError es = some e) :
    ∃ pre post, es = pre ++ some e :: post ∧ ∀ x ∈ pre, x = none := by
  induction es with
  | nil => simp [FirstError] at h
  | cons a rest ih =>
    cases a with
    | none =>
      obtain ⟨pre, post, h1, h2⟩ := ih (by simpa [FirstError] using h)
      exact ⟨none :: pre, post, by simp [h1], by simpa using h2⟩
    | some x =>
      simp only [FirstError, Option.some.injEq] at h
      exact ⟨[], rest, by simp [h], by simp⟩

/-- C8: on a finite error stream, FirstError returns the earliest non-nil element
(everything before it is nil) and returns nil exactly when the stream has no non-nil
element; JoinErrors returns nil in exactly the same case and otherwise the join of
all non-nil elements in stream order. -/
theorem helpers_first_and_join {E : Type} (es : List (Option E)) :
    (FirstError es = none ↔ ∀ e ∈ es, e = none) ∧
    (∀ e, FirstError es = some e →
      ∃ pre post, es = pre ++ some e :: post ∧ ∀ x ∈ pre, x = none) ∧
    (JoinErrors es = none ↔ ∀ e ∈ es, e = none) ∧
    (∀ j, JoinErrors es = some j → j.errs = es.filterMap id ∧ j.errs ≠ []) := by
  refine ⟨FirstError_eq_none es, FirstError_eq_some es, ?_, ?_⟩
  · rw [JoinErrors_eq, ← filterMap_id_eq_nil, ← List.length_eq_zero]
    by_cases h : (es.filterMap id).length = 0 <;> simp [h]
  · intro j hj
    rw [JoinErrors_eq] at hj
    by_cases h : (es.filterMap id).length = 0
    · simp [h] at hj
    · simp only [h, if_false, Option.some.injEq] at hj
      subst hj
      exact ⟨rfl, fun h2 => h (by
        have h3 : es.filterMap id = [] := h2
        simp [h3])⟩

/-! ## Theorems: fan.go -/

theorem clampCount_of_pos (n : Int) (hn : 1 ≤ n) : clampCount n = n.toNat ∧ 0 < n.toNat := by
  unfold clampCount
  constructor
  · rw [if_neg (by omega)]
  · omega

theorem FanOut_foldl {T : Type} (xs : List T) (m : Nat) (acc : List T) :
    xs.foldl (fun outs v => outs.map (fun ch => ch ++ [v])) (List.replicate m acc)
      = List.replicate m (acc ++ xs) := by
  induction xs generalizing acc with
  | nil => simp
  | cons x rest ih =>
    simp only [List.foldl_cons, List.map_replicate]
    rw [ih]
    simp

theorem FanOut_eq {T : Type} (xs : List T) (n : Int) :
    FanOut xs n = List.replicate (clampCount n) xs := by
  unfold FanOut
  rw [FanOut_foldl]
  simp

theorem everyNth_append {T : Type} (xs : List T) (x : T) (n j : Nat) :
    everyNth (xs ++ [x]) n j =
      everyNth xs n j ++ (if xs.length % n = j then [x] else []) := by
  unfold everyNth
  rw [List.enum_append]
  simp only [List.enumFrom_cons, List.enumFrom_nil, List.filter_append, List.map_append]
  congr 1
  by_cases h : xs.length % n = j <;> simp [List.filter, h]

theorem rr_foldl {T : Type} (xs : List T) (m : Nat) :
    (xs.foldl (rrSend m) (0, List.replicate m [])).1 = xs.length ∧
    (xs.foldl (rrSend m) (0, List.replicate m [])).2.length = m ∧
    ∀ j, j < m →
      (xs.foldl (rrSend m) (0, List.replicate m [])).2[j]? = some (everyNth xs m j) := by
  induction xs using List.reverseRecOn with
  | nil =>
    refine ⟨rfl, by simp, ?_⟩
    intro j hj
    simp [everyNth, List.getElem?_replicate, hj]
  | append_singleton xs x ih =>
    obtain ⟨h1, h2, h3⟩ := ih
    rw [List.foldl_append]
    simp only [List.foldl_cons, List.foldl_nil, rrSend, h1, List.length_append,
      List.length_singleton, List.length_modify, h2, true_and]
    intro j hj
    rw [List.getElem?_modify, h3 j hj, everyNth_append]
    by_cases h : xs.length % m = j <;> simp [h]

theorem count_mod_class (n q j : Nat) (hj : j < n) :
    (List.range (n * q)).countP (fun i => decide (i % n = j)) = q := by
  have hn : 0 < n := by omega
  have h := Nat.count_modEq_card (n * q) hn j
  rw [Nat.mul_mod_right, Nat.mul_div_cancel_left q hn] at h
  simp only [Nat.not_lt_zero, if_false, Nat.add_zero] at h
  have h2 : (List.range (n * q)).countP (fun i => decide (i % n = j))
      = Nat.count (fun x => x ≡ j [MOD n]) (n * q) := by
    unfold Nat.count
    congr 1
    funext i
    simp [Nat.ModEq, Nat.mod_eq_of_lt hj]
  rw [h2, h]

theorem everyNth_length {T : Type} (xs : List T) (n j : Nat) :
    (everyNth xs n j).length = (List.range xs.length).countP (fun i => decide (i % n = j)) := by
  unfold everyNth
  rw [List.length_map, ← List.countP_eq_length_filter, ← List.enum_map_fst, List.countP_map]
  rfl

theorem modify_join_perm {T : Type} (l : List (List T)) (v : T) (j : Nat) (hj : j < l.length) :
    (l.modify (fun ch => ch ++ [v]) j).flatten.Perm (v :: l.flatten) := by
  induction l generalizing j with
  | nil => simp at hj
  | cons a rest ih =>
    cases j with
    | zero =>
      simp only [List.modify, List.modifyHead, List.flatten_cons]
      simp
    | succ k =>
      have hk : k < rest.length := by simpa using hj
      have h := ih k hk
      have h2 : (a ++ (rest.modify (fun ch => ch ++ [v]) k).flatten).Perm (a ++ v :: rest.flatten) :=
        List.Perm.append_left a h
      have h3 : (a ++ v :: rest.flatten).Perm (v :: (a ++ rest.flatten)) := List.perm_middle
      simpa [List.modify] using h2.trans h3

theorem rr_join_perm {T : Type} (xs : List T) (m : Nat) (hm : 0 < m) :
    (xs.foldl (rrSend m) (0, List.replicate m [])).2.flatten.Perm xs := by
  induction xs using List.reverseRecOn with
  | nil => simp
  | append_singleton xs x ih =>
    rw [List.foldl_append]
    simp only [List.foldl_cons, List.foldl_nil, rrSend]
    have hlen := (rr_foldl xs m).2.1
    have h1 := modify_join_perm (xs.foldl (rrSend m) (0, List.replicate m [])).2 x
      ((xs.foldl (rrSend m) (0, List.replicate m [])).1 % m)
      (by rw [hlen]; exact Nat.mod_lt _ hm)
    refine h1.trans ?_
    have h2 : (x :: xs).Perm (xs ++ [x]) := by
      simpa using (List.perm_append_comm : ([x] ++ xs).Perm (xs ++ [x]))
    exact (List.Perm.cons x ih).trans h2

/-- C6: for n ≥ 1, FanOutRoundRobin has exactly n outputs, output j delivers exactly
the items at input positions i with i mod n = j, in input order, the outputs together
hold every input item exactly once, and when n divides the input length k each output
delivers k / n items. -/
theorem fanOutRoundRobin_routes {T : Type} (xs : List T) (n : Int) (hn : 1 ≤ n) :
    (FanOutRoundRobin xs n).length = n.toNat ∧
    (∀ j, j < n.toNat → (FanOutRoundRobin xs n)[j]? = some (everyNth xs n.toNat j)) ∧
    (FanOutRoundRobin xs n).flatten.Perm xs ∧
    (n.toNat ∣ xs.length →
      ∀ j, j < n.toNat → (everyNth xs n.toNat j).length = xs.length / n.toNat) := by
  obtain ⟨hc, hpos⟩ := clampCount_of_pos n hn
  unfold FanOutRoundRobin
  rw [hc]
  obtain ⟨_, h2, h3⟩ := rr_foldl xs n.toNat
  refine ⟨h2, h3, rr_join_perm xs n.toNat hpos, ?_⟩
  rintro ⟨q, hq⟩ j hj
  rw [everyNth_length, hq, count_mod_class n.toNat q j hj, Nat.mul_div_cancel_left q hpos]

/-- C6 witness: nine items over three outputs give three outputs of three items each,
output j holding positions j, j+3, j+6. -/
theorem fanOutRoundRobin_routes_witness :
    (FanOutRoundRobin [1, 2, 3, 4, 5, 6, 7, 8, 9] 3).length = 3 ∧
    (∀ j, j < 3 → (FanOutRoundRobin [1, 2, 3, 4, 5, 6, 7, 8, 9] 3)[j]?
      = some (everyNth [1, 2, 3, 4, 5, 6, 7, 8, 9] 3 j)) ∧
    (FanOutRoundRobin [1, 2, 3, 4, 5, 6, 7, 8, 9] 3).flatten.Perm [1, 2, 3, 4, 5, 6, 7, 8, 9] ∧
    (3 ∣ 9 → ∀ j, j < 3 → (everyNth [1, 2, 3, 4, 5, 6, 7, 8, 9] 3 j).length = 9 / 3) :=
  fanOutRoundRobin_routes [1, 2, 3, 4, 5, 6, 7, 8, 9] 3 (by decide)

theorem sum_map_set {α M : Type} [AddCommMonoid M] (f : α → M) (l : List α) (i : Nat)
    (a b : α) (h : l[i]? = some a) :
    ((l.set i b).map f).sum + f a = (l.map f).sum + f b := by
  induction l generalizing i with
  | nil => simp at h
  | cons x rest ih =>
    cases i with
    | zero =>
      simp only [List.getElem?_cons_zero, Option.some.injEq] at h
      subst h
      simp only [List.set_cons_zero, List.map_cons, List.sum_cons]
      abel
    | succ k =>
      simp only [List.getElem?_cons_succ] at h
      have h2 := ih k h
      simp only [List.set_cons_succ, List.map_cons, List.sum_cons]
      rw [add_assoc, h2, add_assoc]

theorem liveChans_mem {T : Type} (chans : List (List T)) (i : Nat) (h : i ∈ liveChans chans) :
    ∃ v rest, chans[i]? = some (v :: rest) := by
  unfold liveChans at h
  simp only [List.mem_filter, List.mem_range] at h
  obtain ⟨_, h2⟩ := h
  cases hc : chans[i]? with
  | none => simp [hc] at h2
  | some c =>
    cases c with
    | nil => simp [hc] at h2
    | cons v rest => exact ⟨v, rest, rfl⟩

theorem liveChans_nil {T : Type} (chans : List (List T)) (h : liveChans chans = []) :
    ∀ c ∈ chans, c = [] := by
  intro c hc
  obtain ⟨i, hi, rfl⟩ := List.getElem_of_mem hc
  unfold liveChans at h
  rw [List.filter_eq_nil_iff] at h
  have h2 := h i (List.mem_range.2 hi)
  cases hci : chans[i] with
  | nil => rfl
  | cons v rest =>
    simp [List.getElem?_eq_getElem hi, hci] at h2

theorem pick_none {α : Type} (l : List α) (k : Nat) (h : l[k % l.length]? = none) : l = [] := by
  cases l with
  | nil => rfl
  | cons a rest =>
    rw [List.getElem?_eq_none_iff] at h
    have := Nat.mod_lt k (Nat.succ_pos rest.length)
    simp only [List.length_cons, Nat.succ_eq_add_one] at h this
    omega

theorem FanInFor_multiset {T : Type} (sched : Nat → Nat) (fuel : Nat) (chans : List (List T))
    (h : (chans.map List.length).sum ≤ fuel) :
    Multiset.ofList (FanInFor sched fuel chans)
      = (chans.map (fun c => Multiset.ofList c)).sum := by
  induction fuel generalizing chans with
  | zero =>
    have h0 : ∀ c ∈ chans, c = [] := by
      intro c hc
      have := List.single_le_sum (by simp) _ (List.mem_map_of_mem List.length hc)
      exact List.length_eq_zero.1 (by omega)
    have h1 : chans.map (fun c => Multiset.ofList c) = chans.map (fun _ => 0) :=
      List.map_congr_left (fun c hc => by simp [h0 c hc])
    rw [h1]
    simp [FanInFor]
  | succ fuel ih =>
    unfold FanInFor
    simp only
    cases hp : (liveChans chans)[sched fuel % (liveChans chans).length]? with
    | none =>
      have h0 := liveChans_nil chans (pick_none _ _ hp)
      have h1 : chans.map (fun c => Multiset.ofList c) = chans.map (fun _ => 0) :=
        List.map_congr_left (fun c hc => by simp [h0 c hc])
      rw [h1]
      simp
    | some i =>
      obtain ⟨v, rest, hc⟩ := liveChans_mem chans i (List.getElem?_mem hp)
      simp only [hc]
      have hl := sum_map_set List.length chans i (v :: rest) rest hc
      have hm := sum_map_set (fun c => Multiset.ofList c) chans i (v :: rest) rest hc
      simp only [List.length_cons] at hl
      have ih2 := ih (chans.set i rest) (by omega)
      rw [← Multiset.cons_coe, ih2]
      have hm1 : ((chans.set i rest).map (fun c => Multiset.ofList c)).sum
          + v ::ₘ Multiset.ofList rest
          = (chans.map (fun c => Multiset.ofList c)).sum + Multiset.ofList rest := hm
      have hm2 : v ::ₘ ((chans.set i rest).map (fun c => Multiset.ofList c)).sum
          + Multiset.ofList rest
          = (chans.map (fun c => Multiset.ofList c)).sum + Multiset.ofList rest := by
        rw [Multiset.cons_add, ← Multiset.add_cons]
        exact hm1
      exact add_right_cancel hm2

/-- C7: for n ≥ 1, FanOut has n outputs each delivering the whole input in input
order, and FanIn over those outputs delivers, under every interleaving of its
forwarding goroutines, exactly n * k items whose multiset is n copies of the input,
after which the merged stream ends. -/
theorem fanOut_fanIn_broadcast {T : Type} (sched : Nat → Nat) (xs : List T) (n : Int)
    (hn : 1 ≤ n) :
    (FanOut xs n).length = n.toNat ∧
    (∀ ch ∈ FanOut xs n, ch = xs) ∧
    (FanIn sched (FanOut xs n)).length = n.toNat * xs.length ∧
    Multiset.ofList (FanIn sched (FanOut xs n)) = n.toNat • Multiset.ofList xs := by
  obtain ⟨hc, _⟩ := clampCount_of_pos n hn
  rw [FanOut_eq, hc]
  have hm : Multiset.ofList (FanIn sched (List.replicate n.toNat xs))
      = n.toNat • Multiset.ofList xs := by
    unfold FanIn
    rw [FanInFor_multiset sched _ _ (le_refl _)]
    simp [List.map_replicate, List.sum_replicate]
  refine ⟨by simp, fun ch h => (List.mem_replicate.1 h).2, ?_, hm⟩
  have := congrArg Multiset.card hm
  simpa using this

/-- C7 witness: five items broadcast to three outputs and merged give fifteen items. -/
theorem fanOut_fanIn_broadcast_witness :
    (FanOut [1, 2, 3, 4, 5] 3).length = 3 ∧
    (∀ ch ∈ FanOut [1, 2, 3, 4, 5] 3, ch = [1, 2, 3, 4, 5]) ∧
    (FanIn (fun _ => 0) (FanOut [1, 2, 3, 4, 5] 3)).length = 3 * 5 ∧
    Multiset.ofList (FanIn (fun _ => 0) (FanOut [1, 2, 3, 4, 5] 3))
      = 3 • Multiset.ofList [1, 2, 3, 4, 5] :=
  fanOut_fanIn_broadcast (fun _ => 0) [1, 2, 3, 4, 5] 3 (by decide)

/-! ## Theorems: the configuration of a stage -/

theorem clampCount_pos (n : Int) : 0 < clampCount n := by
  unfold clampCount
  split <;> omega

theorem options_workers_pos (opts : List StageOption) (c : stageConfig)
    (hopts : ∀ o ∈ opts, packageOption o) (hc : 0 < c.workers) :
    0 < (opts.foldl (fun c o => o c) c).workers := by
  induction opts generalizing c with
  | nil => exact hc
  | cons o rest ih =>
    simp only [List.foldl_cons]
    apply ih _ (fun o2 h2 => hopts o2 (List.mem_cons_of_mem _ h2))
    rcases hopts o (List.mem_cons_self _ _) with ⟨n, rfl⟩ | ⟨name, rfl⟩
    · exact clampCount_pos n
    · exact hc

/-- Every stage added through AddStage has at least one worker, GOMAXPROCS being
positive. -/
theorem AddStage_workers_pos {T E : Type} (p : Pipeline T E) (procs : Nat) (fn : StageFn T E)
    (opts : List StageOption) (hprocs : 0 < procs) (hopts : ∀ o ∈ opts, packageOption o)
    (hp : ∀ st ∈ p.stages, 0 < st.conf.workers) :
    ∀ st ∈ (p.AddStage procs fn opts).stages, 0 < st.conf.workers := by
  intro st hst
  simp only [Pipeline.AddStage, List.mem_append, List.mem_singleton] at hst
  rcases hst with h | h
  · exact hp st h
  · rw [h]
    exact options_workers_pos opts _ hopts hprocs

/-! ## Theorems: the transition system of Run -/

theorem all_isDone {T : Type} (l : List (WorkerPc T)) (h : l.all WorkerPc.isDone = true) :
    ∀ pc ∈ l, pc = WorkerPc.done := by
  intro pc hpc
  have := (List.all_eq_true.1 h) pc hpc
  cases pc <;> simp_all [WorkerPc.isDone]

theorem recvCurr_some {T E : Type} (s s1 : State T E) (v : T)
    (h : recvCurr s = some (v, s1)) :
    (s.ix = 0 ∧ s.inputClosed = false ∧
      ∃ rest, s.feed = v :: rest ∧ s1 = { s with feed := rest }) ∨
    (s.ix ≠ 0 ∧
      ∃ rest, s.curr.buf = v :: rest ∧ s1 = { s with curr := { s.curr with buf := rest } }) := by
  unfold recvCurr at h
  split at h
  · rename_i h0
    split at h
    · cases h
    · rename_i hc
      split at h
      · cases h
      · rename_i v2 rest hf
        simp only [Option.some.injEq, Prod.mk.injEq] at h
        obtain ⟨rfl, rfl⟩ := h
        exact Or.inl ⟨h0, by simpa using hc, rest, hf, rfl⟩
  · rename_i h0
    split at h
    · cases h
    · rename_i v2 rest hf
      simp only [Option.some.injEq, Prod.mk.injEq] at h
      obtain ⟨rfl, rfl⟩ := h
      exact Or.inr ⟨h0, rest, hf, rfl⟩

theorem step_sound {T E : Type} (p : Pipeline T E) (s s1 : State T E) (e : Ev)
    (h : step p s e = some s1) : Step p s s1 := by
  cases e with
  | feederClose =>
    simp only [step] at h
    split at h
    · rename_i hg
      simp only [Bool.and_eq_true, Bool.not_eq_true', List.isEmpty_iff] at hg
      cases h
      exact Step.feederClose s hg.1 hg.2
    · cases h
  | workerRecv w =>
    simp only [step] at h
    split at h
    · split at h
      · split at h
        · cases h
          rename_i hr _ hw _ v s2 hv
          rcases recvCurr_some s s2 v hv with ⟨h0, hic, rest, hf, rfl⟩ | ⟨h0, rest, hf, rfl⟩
          · exact Step.workerRecvIn s w v rest hr hw h0 hic hf
          · exact Step.workerRecvCh s w v rest hr hw h0 hf
        · cases h
      · cases h
    · cases h
  | workerEnd w =>
    simp only [step] at h
    split at h
    · split at h
      · split at h
        · cases h
          rename_i hr _ hw he
          exact Step.workerEnd s w hr hw he
        · cases h
      · cases h
    · cases h
  | workerCancel w =>
    simp only [step] at h
    split at h
    · rename_i hg
      simp only [Bool.and_eq_true, decide_eq_true_eq] at hg
      split at h
      · cases h
        rename_i hw
        exact Step.workerCancelRecv s w hg.1 hg.2 hw
      · cases h
        rename_i res hw
        exact Step.workerCancelSend s w res hg.1 hg.2 hw
      · cases h
    · cases h
  | workerCall w =>
    simp only [step] at h
    split at h
    · rename_i v st hw hs
      split at h
      · cases h
        rename_i e hf
        exact Step.workerCallErr s w v st e hw hs hf
      · cases h
        rename_i res hf
        exact Step.workerCallOk s w v st res hw hs hf
    · cases h
  | workerFail w =>
    simp only [step] at h
    split at h
    · split at h
      · cases h
        rename_i hr _ hw
        exact Step.workerFail s w hr hw
      · cases h
    · cases h
  | workerSend w =>
    simp only [step] at h
    split at h
    · split at h
      · split at h
        · cases h
          rename_i hr _ res hw hb
          exact Step.workerSendDirect s w res hr hw hb
        · split at h
          · cases h
            rename_i hr _ res hw hb hroom
            exact Step.workerSendBuf s w res hr hw hb hroom
          · cases h
      · cases h
    · cases h
  | closerClose =>
    simp only [step] at h
    split at h
    · rename_i hg
      simp only [Bool.and_eq_true, decide_eq_true_eq, Bool.not_eq_true'] at hg
      cases h
      exact Step.closerClose s hg.1.1 (all_isDone _ hg.1.2) hg.2
    · cases h
  | finalRecv =>
    simp only [step] at h
    split at h
    · split at h
      · cases h
      · cases h
        rename_i hr _ v rest hb
        exact Step.finalRecv s v rest hr hb
    · cases h
  | finalDone =>
    simp only [step] at h
    split at h
    · rename_i st hs
      split at h
      · rename_i hg
        simp only [Bool.and_eq_true, List.isEmpty_iff] at hg
        split at h
        · cases h
          rename_i nxt hn
          exact Step.finalNext s st nxt hs hg.1 hg.2 hn
        · cases h
          rename_i hn
          exact Step.finalLast s st hs hg.1 hg.2 hn
      · cases h
    · cases h
  | trailRecv =>
    simp only [step] at h
    split at h
    · rename_i hg
      simp only [Bool.and_eq_true, decide_eq_true_eq, Bool.not_eq_true'] at hg
      split at h
      · cases h
        rename_i _ v hv
        rcases recvCurr_some s s1 v hv with ⟨h0, hic, rest, hf, rfl⟩ | ⟨h0, rest, hf, rfl⟩
        · exact Step.trailRecvIn s v rest hg.1 hg.2 h0 hic hf
        · exact Step.trailRecvCh s v rest hg.1 hg.2 h0 hf
      · cases h
    · cases h
  | trailEnd =>
    simp only [step] at h
    split at h
    · rename_i hg
      simp only [Bool.and_eq_true, decide_eq_true_eq, Bool.not_eq_true'] at hg
      cases h
      exact Step.trailEnd s hg.1.1 hg.1.2 hg.2
    · cases h
  | readOut =>
    simp only [step] at h
    split at h
    · rename_i hg
      simp only [Bool.and_eq_true, decide_eq_true_eq, Bool.not_eq_true'] at hg
      split at h
      · cases h
        rename_i v s2 hv
        rcases recvCurr_some s s2 v hv with ⟨h0, hic, rest, hf, rfl⟩ | ⟨h0, rest, hf, rfl⟩
        · exact Step.readOutIn s v rest hg.1 hg.2 h0 hic hf
        · exact Step.readOutCh s v rest hg.1 hg.2 h0 hf
      · cases h
    · cases h
  | readOutEnd =>
    simp only [step] at h
    split at h
    · rename_i hg
      simp only [Bool.and_eq_true, decide_eq_true_eq, Bool.not_eq_true'] at hg
      cases h
      exact Step.readOutEnd s hg.1.1 hg.1.2 hg.2
    · cases h
  | readErr =>
    simp only [step] at h
    split at h
    · rename_i hg
      simp only [Bool.and_eq_true, decide_eq_true_eq, Bool.not_eq_true'] at hg
      split at h
      · cases h
      · cases h
        rename_i e rest he
        exact Step.readErr s e rest hg.1 hg.2 he
    · cases h
  | readErrEnd =>
    simp only [step] at h
    split at h
    · rename_i hg
      simp only [Bool.and_eq_true, decide_eq_true_eq, Bool.not_eq_true', List.isEmpty_iff] at hg
      cases h
      exact Step.readErrEnd s hg.1.1.1 hg.1.1.2 hg.1.2 hg.2
    · cases h

theorem worker_ev_mem {T E : Type} (s : State T E) (w : Nat) (pc : WorkerPc T)
    (hw : s.workers[w]? = some pc) (e : Ev)
    (he : e ∈ [Ev.workerRecv w, Ev.workerEnd w, Ev.workerCancel w, Ev.workerCall w,
      Ev.workerFail w, Ev.workerSend w]) : e ∈ events s := by
  unfold events
  refine List.mem_append_right _ (List.mem_flatMap.2 ⟨w, ?_, he⟩)
  obtain ⟨hlt, _⟩ := List.getElem?_eq_some.1 hw
  exact List.mem_range.2 hlt

theorem all_isDone_of {T : Type} (l : List (WorkerPc T)) (h : ∀ pc ∈ l, pc = WorkerPc.done) :
    l.all WorkerPc.isDone = true := by
  rw [List.all_eq_true]
  intro pc hpc
  rw [h pc hpc]
  rfl

theorem recvCurr_in {T E : Type} (s : State T E) (v : T) (rest : List T)
    (h0 : s.ix = 0) (hic : s.inputClosed = false) (hf : s.feed = v :: rest) :
    recvCurr s = some (v, { s with feed := rest }) := by
  simp [recvCurr, h0, hic, hf]

theorem recvCurr_ch {T E : Type} (s : State T E) (v : T) (rest : List T)
    (h0 : s.ix ≠ 0) (hf : s.curr.buf = v :: rest) :
    recvCurr s = some (v, { s with curr := { s.curr with buf := rest } }) := by
  simp [recvCurr, h0, hf]

theorem step_complete {T E : Type} (p : Pipeline T E) (s s1 : State T E)
    (h : Step p s s1) : s1 ∈ succs p s := by
  unfold succs
  rw [List.mem_filterMap]
  cases h with
  | feederClose h1 h2 =>
    refine ⟨Ev.feederClose, by simp [events], ?_⟩
    simp [step, h1, h2]
  | workerRecvIn w v rest hr hw h0 hic hf =>
    refine ⟨Ev.workerRecv w, worker_ev_mem s w _ hw _ (by simp), ?_⟩
    simp [step, hr, hw, recvCurr_in s v rest h0 hic hf]
  | workerRecvCh w v rest hr hw h0 hf =>
    refine ⟨Ev.workerRecv w, worker_ev_mem s w _ hw _ (by simp), ?_⟩
    simp [step, hr, hw, recvCurr_ch s v rest h0 hf]
  | workerEnd w hr hw he =>
    refine ⟨Ev.workerEnd w, worker_ev_mem s w _ hw _ (by simp), ?_⟩
    simp [step, hr, hw, he]
  | workerCancelRecv w hr hc hw =>
    refine ⟨Ev.workerCancel w, worker_ev_mem s w _ hw _ (by simp), ?_⟩
    simp [step, hr, hw, hc]
  | workerCancelSend w res hr hc hw =>
    refine ⟨Ev.workerCancel w, worker_ev_mem s w _ hw _ (by simp), ?_⟩
    simp [step, hr, hw, hc]
  | workerCallErr w v st e hw hs hf =>
    refine ⟨Ev.workerCall w, worker_ev_mem s w _ hw _ (by simp), ?_⟩
    simp [step, hw, hs, hf]
  | workerCallOk w v st res hw hs hf =>
    refine ⟨Ev.workerCall w, worker_ev_mem s w _ hw _ (by simp), ?_⟩
    simp [step, hw, hs, hf]
  | workerFail w hr hw =>
    refine ⟨Ev.workerFail w, worker_ev_mem s w _ hw _ (by simp), ?_⟩
    simp [step, hr, hw]
  | workerSendDirect w res hr hw hb =>
    refine ⟨Ev.workerSend w, worker_ev_mem s w _ hw _ (by simp), ?_⟩
    simp [step, hr, hw, hb]
  | workerSendBuf w res hr hw hb hroom =>
    refine ⟨Ev.workerSend w, worker_ev_mem s w _ hw _ (by simp), ?_⟩
    simp [step, hr, hw, hb, hroom]
  | closerClose hr hd hc =>
    refine ⟨Ev.closerClose, by simp [events], ?_⟩
    simp [step, hr, hc, all_isDone_of _ hd]
  | finalRecv v rest hr hb =>
    refine ⟨Ev.finalRecv, by simp [events], ?_⟩
    simp [step, hr, hb]
  | finalNext st nxt hs hc hb hn =>
    refine ⟨Ev.finalDone, by simp [events], ?_⟩
    simp [step, hs, hc, hb, hn]
  | finalLast st hs hc hb hn =>
    refine ⟨Ev.finalDone, by simp [events], ?_⟩
    simp [step, hs, hc, hb, hn]
  | trailRecvIn v rest hr ht h0 hic hf =>
    refine ⟨Ev.trailRecv, by simp [events], ?_⟩
    simp [step, hr, ht, recvCurr_in s v rest h0 hic hf]
  | trailRecvCh v rest hr ht h0 hf =>
    refine ⟨Ev.trailRecv, by simp [events], ?_⟩
    simp [step, hr, ht, recvCurr_ch s v rest h0 hf]
  | trailEnd hr ht he =>
    refine ⟨Ev.trailEnd, by simp [events], ?_⟩
    simp [step, hr, ht, he]
  | readOutIn v rest hr ho h0 hic hf =>
    refine ⟨Ev.readOut, by simp [events], ?_⟩
    simp [step, hr, ho, recvCurr_in s v rest h0 hic hf]
  | readOutCh v rest hr ho h0 hf =>
    refine ⟨Ev.readOut, by simp [events], ?_⟩
    simp [step, hr, ho, recvCurr_ch s v rest h0 hf]
  | readOutEnd hr ho he =>
    refine ⟨Ev.readOutEnd, by simp [events], ?_⟩
    simp [step, hr, ho, he]
  | readErr e rest hr hd he =>
    refine ⟨Ev.readErr, by simp [events], ?_⟩
    simp [step, hr, hd, he]
  | readErrEnd hr hd he hc =>
    refine ⟨Ev.readErrEnd, by simp [events], ?_⟩
    simp [step, hr, hd, he, hc]

theorem next_sound {T E : Type} (p : Pipeline T E) (k : Nat) (s s1 : State T E)
    (h : next p k s = some s1) : Step p s s1 := by
  unfold next at h
  have hm := List.getElem?_mem h
  unfold succs at hm
  obtain ⟨e, _, he⟩ := List.mem_filterMap.1 hm
  exact step_sound p s s1 e he

theorem next_none {T E : Type} (p : Pipeline T E) (k : Nat) (s : State T E)
    (h : next p k s = none) : ∀ s1, ¬ Step p s s1 := by
  intro s1 hs
  have h1 := pick_none _ _ h
  have h2 := step_complete p s s1 hs
  rw [h1] at h2
  simp at h2

theorem getElem?_lt {α : Type} (l : List α) (i : Nat) (a : α) (h : l[i]? = some a) :
    i < l.length :=
  (List.getElem?_eq_some.1 h).1

theorem drop_of_getElem? {α : Type} (l : List α) (i : Nat) (a : α) (h : l[i]? = some a) :
    l.drop i = a :: l.drop (i + 1) := by
  obtain ⟨hlt, rfl⟩ := List.getElem?_eq_some.1 h
  exact List.drop_eq_getElem_cons hlt

theorem step_measure {T E : Type} (p : Pipeline T E) (s s1 : State T E)
    (h : Step p s s1) : measure p s1 < measure p s := by
  have f0 : flag false = 1 := rfl
  have f1 : flag true = 0 := rfl
  cases h with
  | feederClose h1 h2 =>
    simp only [measure, h1, f0, f1]
    omega
  | workerRecvIn w v rest hr hw h0 hic hf =>
    have hs := sum_map_set wcost s.workers w _ (WorkerPc.got v) hw
    simp only [measure, hf, List.length_cons, wcost] at hs ⊢
    omega
  | workerRecvCh w v rest hr hw h0 hf =>
    have hs := sum_map_set wcost s.workers w _ (WorkerPc.got v) hw
    simp only [measure, hf, List.length_cons, wcost] at hs ⊢
    omega
  | workerEnd w hr hw he =>
    have hs := sum_map_set wcost s.workers w _ WorkerPc.done hw
    simp only [measure, wcost] at hs ⊢
    omega
  | workerCancelRecv w hr hc hw =>
    have hs := sum_map_set wcost s.workers w _ WorkerPc.done hw
    simp only [measure, wcost] at hs ⊢
    omega
  | workerCancelSend w res hr hc hw =>
    have hs := sum_map_set wcost s.workers w _ WorkerPc.done hw
    simp only [measure, wcost] at hs ⊢
    omega
  | workerCallErr w v st e hw hs hf =>
    have he : (offerErr s.errs e).length ≤ s.errs.length + 1 := by
      unfold offerErr
      split <;> simp
    by_cases hm : p.errMode = ErrorMode.FailFast
    · have hs := sum_map_set wcost s.workers w _ WorkerPc.failing hw
      simp only [measure, wcost, hm, if_true] at hs ⊢
      omega
    · have hs := sum_map_set wcost s.workers w _ WorkerPc.recv hw
      simp only [measure, wcost, hm, if_false] at hs ⊢
      omega
  | workerCallOk w v st res hw hs hf =>
    have hs := sum_map_set wcost s.workers w _ (WorkerPc.send res) hw
    simp only [measure, wcost] at hs ⊢
    omega
  | workerFail w hr hw =>
    have hs := sum_map_set wcost s.workers w _ WorkerPc.done hw
    simp only [measure, wcost] at hs ⊢
    omega
  | workerSendDirect w res hr hw hb =>
    have hs := sum_map_set wcost s.workers w _ WorkerPc.recv hw
    simp only [measure, wcost] at hs ⊢
    omega
  | workerSendBuf w res hr hw hb hroom =>
    have hs := sum_map_set wcost s.workers w _ WorkerPc.recv hw
    simp only [measure, wcost, List.length_append, List.length_singleton] at hs ⊢
    omega
  | closerClose hr hd hc =>
    have c0 : closerCost p s.ix false = 1 := by simp [closerCost, hr]
    have c1 : closerCost p s.ix true = 0 := by simp [closerCost]
    simp only [measure, hc, c0, c1]
    omega
  | finalRecv v rest hr hb =>
    simp only [measure, hb, List.length_cons]
    omega
  | finalNext st nxt hs hc hb hn =>
    have h1 := getElem?_lt _ _ _ hs
    have h2 := getElem?_lt _ _ _ hn
    have h3 := drop_of_getElem? _ _ _ hn
    have c0 : closerCost p (s.ix + 1) false = 1 := by simp [closerCost, h2]
    have c1 : closerCost p s.ix true = 0 := by simp [closerCost]
    have d0 : finalCost p s.ix = 1 := by simp [finalCost, h1]
    have d1 : finalCost p (s.ix + 1) = 1 := by simp [finalCost, h2]
    have e0 : futureCost p s.ix = 2 * nxt.conf.workers + 3 + futureCost p (s.ix + 1) := by
      simp [futureCost, h3, stageCost]
    have hw : ((List.replicate nxt.conf.workers (WorkerPc.recv : WorkerPc T)).map wcost).sum
        = 2 * nxt.conf.workers := by
      simp [List.map_replicate, List.sum_replicate, wcost, Nat.mul_comm]
    simp only [measure, hb, hc, c0, c1, d0, d1, e0, hw, List.length_nil]
    omega
  | finalLast st hs hc hb hn =>
    have h1 := getElem?_lt _ _ _ hs
    have h2 : p.stages.length ≤ s.ix + 1 := List.getElem?_eq_none_iff.1 hn
    have c0 : closerCost p (s.ix + 1) true = 0 := by simp [closerCost]
    have c1 : closerCost p s.ix true = 0 := by simp [closerCost]
    have d0 : finalCost p s.ix = 1 := by simp [finalCost, h1]
    have d1 : finalCost p (s.ix + 1) = 0 := by simp [finalCost, h2]
    have e0 : futureCost p s.ix = 0 := by
      simp [futureCost, List.drop_eq_nil_of_le h2]
    have e1 : futureCost p (s.ix + 1) = 0 := by
      have : p.stages.length ≤ s.ix + 1 + 1 := by omega
      simp [futureCost, List.drop_eq_nil_of_le this]
    simp only [measure, hb, hc, c0, c1, d0, d1, e0, e1, List.length_nil]
    omega
  | trailRecvIn v rest hr ht h0 hic hf =>
    simp only [measure, hf, List.length_cons]
    omega
  | trailRecvCh v rest hr ht h0 hf =>
    simp only [measure, hf, List.length_cons]
    omega
  | trailEnd hr ht he =>
    simp only [measure, ht, f0, f1]
    omega
  | readOutIn v rest hr ho h0 hic hf =>
    simp only [measure, hf, List.length_cons]
    omega
  | readOutCh v rest hr ho h0 hf =>
    simp only [measure, hf, List.length_cons]
    omega
  | readOutEnd hr ho he =>
    simp only [measure, ho, f0, f1]
    omega
  | readErr e rest hr hd he =>
    simp only [measure, he, List.length_cons]
    omega
  | readErrEnd hr hd he hc =>
    simp only [measure, hd, f0, f1]
    omega

theorem basic_init {T E : Type} (p : Pipeline T E) (xs : List T) :
    BasicInv p (initState p xs) := by
  simp [BasicInv, initState]

theorem basic_step {T E : Type} (p : Pipeline T E) (s s1 : State T E)
    (hi : BasicInv p s) (h : Step p s s1) : BasicInv p s1 := by
  obtain ⟨a1, a2, a3⟩ := hi
  cases h with
  | workerRecvCh w v rest hr hw h0 hf => simp [(a2 h0).2] at hf
  | trailRecvCh v rest hr ht h0 hf => simp [(a2 h0).2] at hf
  | readOutCh v rest hr ho h0 hf => simp [(a2 h0).2] at hf
  | finalNext st nxt hs hc hb hn =>
    exact ⟨getElem?_lt _ _ _ hn |> Nat.le_of_lt, fun _ => ⟨hc, hb⟩, a3⟩
  | finalLast st hs hc hb hn =>
    exact ⟨getElem?_lt _ _ _ hs, fun _ => ⟨hc, hb⟩, a3⟩
  | trailEnd hr ht he =>
    exact ⟨a1, a2, fun _ => ⟨rfl, rfl⟩⟩
  | workerFail w hr hw =>
    exact ⟨a1, a2, fun h => ⟨(a3 h).1, rfl⟩⟩
  | _ => exact ⟨a1, a2, a3⟩

theorem worker_not_done {T : Type} (l : List (WorkerPc T)) :
    (∀ pc ∈ l, pc = WorkerPc.done) ∨
      ∃ (w : Nat) (pc : WorkerPc T), l[w]? = some pc ∧ pc ≠ WorkerPc.done := by
  by_cases h : ∀ pc ∈ l, pc = WorkerPc.done
  · exact Or.inl h
  · right
    push_neg at h
    obtain ⟨pc, hm, hne⟩ := h
    obtain ⟨w, hw, rfl⟩ := List.getElem_of_mem hm
    exact ⟨w, l[w], List.getElem?_eq_getElem hw, hne⟩

theorem currEnded_of_pos {T E : Type} (p : Pipeline T E) (s : State T E)
    (hi : BasicInv p s) (h0 : s.ix ≠ 0) : currEnded s = true := by
  obtain ⟨hc, hb⟩ := hi.2.1 h0
  simp [currEnded, h0, hc, hb]

theorem progress_running {T E : Type} (p : Pipeline T E) (s : State T E)
    (hi : BasicInv p s) (hr : s.ix < p.stages.length) : ∃ s1, Step p s s1 := by
  rcases worker_not_done s.workers with hd | ⟨w, pc, hw, hne⟩
  · cases hc : s.out.closed with
    | false => exact ⟨_, Step.closerClose s hr hd hc⟩
    | true =>
      cases hb : s.out.buf with
      | cons v rest => exact ⟨_, Step.finalRecv s v rest hr hb⟩
      | nil =>
        have hs : p.stages[s.ix]? = some p.stages[s.ix] := List.getElem?_eq_getElem hr
        cases hn : p.stages[s.ix + 1]? with
        | some nxt => exact ⟨_, Step.finalNext s _ nxt hs hc hb hn⟩
        | none => exact ⟨_, Step.finalLast s _ hs hc hb hn⟩
  · cases pc with
    | done => exact absurd rfl hne
    | failing => exact ⟨_, Step.workerFail s w hr hw⟩
    | got v =>
      have hs : p.stages[s.ix]? = some p.stages[s.ix] := List.getElem?_eq_getElem hr
      cases hf : p.stages[s.ix].fn v with
      | error e => exact ⟨_, Step.workerCallErr s w v _ e hw hs hf⟩
      | ok res => exact ⟨_, Step.workerCallOk s w v _ res hw hs hf⟩
    | send res =>
      by_cases hb : p.bufSize = 0
      · exact ⟨_, Step.workerSendDirect s w res hr hw hb⟩
      · by_cases hroom : s.out.buf.length < p.bufSize
        · exact ⟨_, Step.workerSendBuf s w res hr hw hb hroom⟩
        · cases hob : s.out.buf with
          | nil =>
            rw [hob] at hroom
            simp only [List.length_nil] at hroom
            omega
          | cons v rest => exact ⟨_, Step.finalRecv s v rest hr hob⟩
    | recv =>
      cases hc : s.cancelled with
      | true => exact ⟨_, Step.workerCancelRecv s w hr hc hw⟩
      | false =>
        by_cases h0 : s.ix = 0
        · cases hic : s.inputClosed with
          | true =>
            exact ⟨_, Step.workerEnd s w hr hw (by simp [currEnded, h0, hic])⟩
          | false =>
            cases hf : s.feed with
            | nil => exact ⟨_, Step.feederClose s hic hf⟩
            | cons v rest =>
              exact ⟨_, Step.workerRecvIn s w v rest hr hw h0 hic hf⟩
        · exact ⟨_, Step.workerEnd s w hr hw (currEnded_of_pos p s hi h0)⟩

theorem progress_returned {T E : Type} (p : Pipeline T E) (s : State T E)
    (hi : BasicInv p s) (hr : s.ix = p.stages.length) (hf : finished p s = false) :
    ∃ s1, Step p s s1 := by
  cases ht : s.trailingDone with
  | false =>
    by_cases he : currEnded s = true
    · exact ⟨_, Step.trailEnd s hr ht he⟩
    · by_cases h0 : s.ix = 0
      · have hic : s.inputClosed = false := by simpa [currEnded, h0] using he
        cases hfd : s.feed with
        | nil => exact ⟨_, Step.feederClose s hic hfd⟩
        | cons v rest =>
          exact ⟨_, Step.trailRecvIn s v rest hr ht h0 hic hfd⟩
      · exact absurd (currEnded_of_pos p s hi h0) he
  | true =>
    obtain ⟨hec, _⟩ := hi.2.2 ht
    cases ho : s.outDone with
    | false =>
      by_cases he : currEnded s = true
      · exact ⟨_, Step.readOutEnd s hr ho he⟩
      · by_cases h0 : s.ix = 0
        · have hic : s.inputClosed = false := by simpa [currEnded, h0] using he
          cases hfd : s.feed with
          | nil => exact ⟨_, Step.feederClose s hic hfd⟩
          | cons v rest => exact ⟨_, Step.readOutIn s v rest hr ho h0 hic hfd⟩
        · exact absurd (currEnded_of_pos p s hi h0) he
    | true =>
      cases hd : s.errDone with
      | false =>
        cases hel : s.errs with
        | nil => exact ⟨_, Step.readErrEnd s hr hd hel hec⟩
        | cons e rest => exact ⟨_, Step.readErr s e rest hr hd hel⟩
      | true =>
        simp [finished, hr, ht, ho, hd] at hf

theorem progress {T E : Type} (p : Pipeline T E) (s : State T E)
    (hi : BasicInv p s) (hn : ∀ s1, ¬ Step p s s1) : finished p s = true := by
  by_contra hf
  have hf2 : finished p s = false := by simpa using hf
  rcases Nat.lt_or_ge s.ix p.stages.length with hr | hr
  · obtain ⟨s1, h1⟩ := progress_running p s hi hr
    exact hn s1 h1
  · obtain ⟨s1, h1⟩ := progress_returned p s hi (Nat.le_antisymm hi.1 hr) hf2
    exact hn s1 h1

/-- An invariant of the transition relation holds along every scheduled run. -/
theorem runFor_inv {T E : Type} (p : Pipeline T E) (sched : Nat → Nat)
    (I : State T E → Prop) (hI : ∀ s s1, I s → Step p s s1 → I s1)
    (n : Nat) (s : State T E) (h : I s) : I (runFor p sched n s) := by
  induction n generalizing s with
  | zero => exact h
  | succ n ih =>
    unfold runFor
    cases hn : next p (sched n) s with
    | none => exact h
    | some s1 => exact ih s1 (hI s s1 h (next_sound p _ s s1 hn))

/-- Every scheduled run that is given as many actions as the measure of its start
state ends in a state where RunChan has returned and the caller has read both
channels to their close. -/
theorem runFor_finished {T E : Type} (p : Pipeline T E) (sched : Nat → Nat)
    (n : Nat) (s : State T E) (hi : BasicInv p s) (hm : measure p s ≤ n) :
    finished p (runFor p sched n s) = true := by
  induction n generalizing s with
  | zero =>
    unfold runFor
    apply progress p s hi
    intro s1 h1
    have := step_measure p s s1 h1
    omega
  | succ n ih =>
    unfold runFor
    cases hn : next p (sched n) s with
    | none => exact progress p s hi (next_none p _ s hn)
    | some s1 =>
      have h1 := next_sound p _ s s1 hn
      have := step_measure p s s1 h1
      exact ih s1 (basic_step p s s1 hi h1) (by omega)

theorem execute_finished {T E : Type} (sched : Nat → Nat) (p : Pipeline T E) (xs : List T) :
    finished p (execute sched p xs) = true :=
  runFor_finished p sched _ _ (basic_init p xs) (le_refl _)

theorem execute_inv {T E : Type} (sched : Nat → Nat) (p : Pipeline T E) (xs : List T)
    (I : State T E → Prop) (hI : ∀ s s1, I s → Step p s s1 → I s1)
    (h0 : I (initState p xs)) : I (execute sched p xs) :=
  runFor_inv p sched I hI _ _ h0

theorem Run_eq {T E : Type} (sched : Nat → Nat) (p : Pipeline T E) (xs : List T) :
    p.Run sched xs = some
      { Out := (execute sched p xs).outSeen
        Errors := (execute sched p xs).errSeen.map some
        metrics := (execute sched p xs).metrics } := by
  unfold Pipeline.Run Pipeline.RunChan
  simp [execute_finished sched p xs]

theorem shape_init {T E : Type} (p : Pipeline T E) (xs : List T) :
    ShapeInv p (initState p xs) := by
  refine ⟨basic_init p xs, ?_, ?_, ?_, ?_, ?_, ?_, ?_⟩ <;>
    simp [MetricsNamed, LaterIdle, CallsFirst, LaterZero, OutUnseen, ClosedDone, ErrDrained,
      initState]

theorem metricsNamed_step {T E : Type} (p : Pipeline T E) (s s1 : State T E)
    (hi : MetricsNamed p s) (h : Step p s s1) : MetricsNamed p s1 := by
  unfold MetricsNamed at hi ⊢
  cases h with
  | finalNext st nxt hs hc hb hn => simp [List.take_succ, hs, hi]
  | finalLast st hs hc hb hn => simp [List.take_succ, hs, hi]
  | _ => exact hi

theorem mem_set_cases {α : Type} (l : List α) (w : Nat) (a x : α) (h : x ∈ l.set w a) :
    x ∈ l ∨ x = a :=
  List.mem_or_eq_of_mem_set h

theorem laterIdle_step {T E : Type} (p : Pipeline T E) (s s1 : State T E)
    (hb : BasicInv p s) (hi : LaterIdle p s) (h : Step p s s1) : LaterIdle p s1 := by
  unfold LaterIdle at hi ⊢
  cases h with
  | workerRecvIn w v rest hr hw h0 hic hf => exact fun h1 => absurd h0 h1
  | workerRecvCh w v rest hr hw h0 hf => simp [(hb.2.1 h0).2] at hf
  | workerEnd w hr hw he =>
    intro h0 hr2
    refine ⟨fun pc hpc => ?_, (hi h0 hr2).2⟩
    rcases mem_set_cases _ _ _ _ hpc with h1 | h1
    · exact (hi h0 hr2).1 pc h1
    · exact Or.inr h1
  | workerCancelRecv w hr hc hw =>
    intro h0 hr2
    refine ⟨fun pc hpc => ?_, (hi h0 hr2).2⟩
    rcases mem_set_cases _ _ _ _ hpc with h1 | h1
    · exact (hi h0 hr2).1 pc h1
    · exact Or.inr h1
  | workerCancelSend w res hr hc hw =>
    intro h0 hr2
    refine ⟨fun pc hpc => ?_, (hi h0 hr2).2⟩
    rcases mem_set_cases _ _ _ _ hpc with h1 | h1
    · exact (hi h0 hr2).1 pc h1
    · exact Or.inr h1
  | workerCallErr w v st e hw hs hf =>
    intro h0 hr2
    have := (hi h0 hr2).1 _ (List.getElem?_mem hw)
    simp at this
  | workerCallOk w v st res hw hs hf =>
    intro h0 hr2
    have := (hi h0 hr2).1 _ (List.getElem?_mem hw)
    simp at this
  | workerFail w hr hw =>
    intro h0 hr2
    have := (hi h0 hr2).1 _ (List.getElem?_mem hw)
    simp at this
  | workerSendDirect w res hr hw hb2 =>
    intro h0 hr2
    have := (hi h0 hr2).1 _ (List.getElem?_mem hw)
    simp at this
  | workerSendBuf w res hr hw hb2 hroom =>
    intro h0 hr2
    have := (hi h0 hr2).1 _ (List.getElem?_mem hw)
    simp at this
  | finalNext st nxt hs hc hb2 hn =>
    intro _ _
    exact ⟨fun pc hpc => Or.inl (List.eq_of_mem_replicate hpc), rfl⟩
  | finalLast st hs hc hb2 hn =>
    intro _ hr2
    have : p.stages.length ≤ s.ix + 1 := List.getElem?_eq_none_iff.1 hn
    exact absurd hr2 (by simp only [not_lt]; exact this)
  | _ => exact hi

theorem callsFirst_step {T E : Type} (p : Pipeline T E) (s s1 : State T E)
    (hl : LaterIdle p s) (hi : CallsFirst s) (h : Step p s s1) : CallsFirst s1 := by
  unfold CallsFirst at hi ⊢
  have key : ∀ (w : Nat) (v : T) (st : stageWrap T E), s.workers[w]? = some (WorkerPc.got v) →
      p.stages[s.ix]? = some st → ∀ c ∈ s.calls ++ [(s.ix, v)], c.1 = 0 := by
    intro w v st hw hs c hc
    rcases List.mem_append.1 hc with h1 | h1
    · exact hi c h1
    · simp only [List.mem_singleton] at h1
      subst h1
      by_contra h0
      have := (hl h0 (getElem?_lt _ _ _ hs)).1 _ (List.getElem?_mem hw)
      simp at this
  cases h with
  | workerCallErr w v st e hw hs hf => exact key w v st hw hs
  | workerCallOk w v st res hw hs hf => exact key w v st hw hs
  | _ => exact hi

theorem metrics_nil_of_zero {T E : Type} (p : Pipeline T E) (s : State T E)
    (hm : MetricsNamed p s) (h0 : s.ix = 0) : s.metrics = [] := by
  unfold MetricsNamed at hm
  rw [h0] at hm
  simpa using hm

theorem laterZero_step {T E : Type} (p : Pipeline T E) (s s1 : State T E)
    (hm : MetricsNamed p s) (hl : LaterIdle p s) (hi : LaterZero s) (h : Step p s s1) :
    LaterZero s1 := by
  unfold LaterZero at hi ⊢
  have key : ∀ (st : stageWrap T E), p.stages[s.ix]? = some st →
      ∀ m ∈ (s.metrics ++ [StageMetrics.mk st.conf.name s.processed]).drop 1,
        m.ItemsProcessed = 0 := by
    intro st hs m hmem
    by_cases h0 : s.ix = 0
    · simp [metrics_nil_of_zero p s hm h0] at hmem
    · have hp := (hl h0 (getElem?_lt _ _ _ hs)).2
      cases hmet : s.metrics with
      | nil => simp [hmet] at hmem
      | cons a rest =>
        rw [hmet] at hmem hi
        simp only [List.cons_append, List.drop_succ_cons, List.drop_zero, List.mem_append,
          List.mem_singleton] at hmem hi
        rcases hmem with h1 | h1
        · exact hi m h1
        · rw [h1]
          exact hp
  cases h with
  | finalNext st nxt hs hc hb hn => exact key st hs
  | finalLast st hs hc hb hn => exact key st hs
  | _ => exact hi

theorem outUnseen_step {T E : Type} (p : Pipeline T E) (s s1 : State T E)
    (hb : BasicInv p s) (hi : OutUnseen p s) (h : Step p s s1) : OutUnseen p s1 := by
  unfold OutUnseen at hi ⊢
  cases h with
  | readOutIn v rest hr ho h0 hic hf =>
    intro hne
    rw [h0] at hr
    exact absurd (List.length_eq_zero.1 hr.symm) hne
  | readOutCh v rest hr ho h0 hf => simp [(hb.2.1 h0).2] at hf
  | _ => exact hi

theorem closedDone_step {T E : Type} (p : Pipeline T E) (s s1 : State T E)
    (hi : ClosedDone p s) (h : Step p s s1) : ClosedDone p s1 := by
  unfold ClosedDone at hi ⊢
  have key : ∀ (w : Nat) (pc : WorkerPc T), s.workers[w]? = some pc → pc ≠ WorkerPc.done →
      s.ix < p.stages.length → s.out.closed = true → False := by
    intro w pc hw hne hr hc
    exact hne (hi hr hc pc (List.getElem?_mem hw))
  cases h with
  | workerRecvIn w v rest hr hw h0 hic hf =>
    exact fun h1 h2 => (key w _ hw (by simp) h1 h2).elim
  | workerRecvCh w v rest hr hw h0 hf =>
    exact fun h1 h2 => (key w _ hw (by simp) h1 h2).elim
  | workerEnd w hr hw he =>
    exact fun h1 h2 => (key w _ hw (by simp) h1 h2).elim
  | workerCancelRecv w hr hc hw =>
    exact fun h1 h2 => (key w _ hw (by simp) h1 h2).elim
  | workerCancelSend w res hr hc hw =>
    exact fun h1 h2 => (key w _ hw (by simp) h1 h2).elim
  | workerCallErr w v st e hw hs hf =>
    exact fun h1 h2 => (key w _ hw (by simp) h1 h2).elim
  | workerCallOk w v st res hw hs hf =>
    exact fun h1 h2 => (key w _ hw (by simp) h1 h2).elim
  | workerFail w hr hw =>
    exact fun h1 h2 => (key w _ hw (by simp) h1 h2).elim
  | workerSendDirect w res hr hw hb =>
    exact fun h1 h2 => (key w _ hw (by simp) h1 h2).elim
  | workerSendBuf w res hr hw hb hroom =>
    exact fun h1 h2 => (key w _ hw (by simp) h1 h2).elim
  | closerClose hr hd hc => exact fun _ _ => hd
  | finalNext st nxt hs hc hb hn => exact fun _ h2 => by simp at h2
  | finalLast st hs hc hb hn =>
    intro hr2 _
    have : p.stages.length ≤ s.ix + 1 := List.getElem?_eq_none_iff.1 hn
    exact absurd hr2 (by simp only [not_lt]; exact this)
  | _ => exact hi

theorem errDrained_step {T E : Type} (p : Pipeline T E) (s s1 : State T E)
    (hi : ErrDrained p s) (h : Step p s s1) : ErrDrained p s1 := by
  unfold ErrDrained at hi ⊢
  obtain ⟨h1, h2⟩ := hi
  cases h with
  | workerCallErr w v st e hw hs hf =>
    refine ⟨fun hd => ?_, h2⟩
    have := getElem?_lt _ _ _ hs
    have := (h1 hd).2
    omega
  | finalNext st nxt hs hc hb hn =>
    have := getElem?_lt _ _ _ hs
    refine ⟨fun hd => ?_, fun _ => h2 this⟩
    have := (h1 hd).2
    omega
  | finalLast st hs hc hb hn =>
    have := getElem?_lt _ _ _ hs
    have hle : p.stages.length ≤ s.ix + 1 := List.getElem?_eq_none_iff.1 hn
    refine ⟨fun hd => ?_, fun hlt => ?_⟩
    · have := (h1 hd).2
      omega
    · exact absurd hlt (by simp only [not_lt]; exact hle)
  | readErr e rest hr hd he =>
    refine ⟨fun hd2 => ?_, fun hlt => ?_⟩
    · simp [hd] at hd2
    · simp only at hlt
      omega
  | readErrEnd hr hd he hc => exact ⟨fun _ => ⟨he, hr⟩, h2⟩
  | _ => exact ⟨h1, h2⟩

theorem shape_step {T E : Type} (p : Pipeline T E) (s s1 : State T E)
    (hi : ShapeInv p s) (h : Step p s s1) : ShapeInv p s1 := by
  obtain ⟨a, b, c, d, e, f, g, k⟩ := hi
  exact ⟨basic_step p s s1 a h, metricsNamed_step p s s1 b h, laterIdle_step p s s1 a c h,
    callsFirst_step p s s1 c d h, laterZero_step p s s1 b c e h, outUnseen_step p s s1 a f h,
    closedDone_step p s s1 g h, errDrained_step p s s1 k h⟩

theorem execute_shape {T E : Type} (sched : Nat → Nat) (p : Pipeline T E) (xs : List T) :
    ShapeInv p (execute sched p xs) :=
  execute_inv sched p xs (ShapeInv p) (shape_step p) (shape_init p xs)

theorem held_set {T : Type} (ws : List (WorkerPc T)) (w : Nat) (a b : WorkerPc T)
    (hw : ws[w]? = some a) : held (ws.set w b) + heldOf a = held ws + heldOf b :=
  sum_map_set heldOf ws w a b hw

theorem held_set_same {T : Type} (ws : List (WorkerPc T)) (w : Nat) (a b : WorkerPc T)
    (hw : ws[w]? = some a) (ha : heldOf a = 0) (hb : heldOf b = 0) :
    held (ws.set w b) = held ws := by
  have := held_set ws w a b hw
  rwa [ha, hb, add_zero, add_zero] at this

theorem held_done {T : Type} (ws : List (WorkerPc T)) (h : ∀ pc ∈ ws, pc = WorkerPc.done) :
    held ws = 0 := by
  unfold held
  have h1 : ws.map heldOf = ws.map (fun _ => (0 : Multiset T)) :=
    List.map_congr_left (fun pc hpc => by rw [h pc hpc]; rfl)
  rw [h1]
  simp

theorem held_idle {T : Type} (ws : List (WorkerPc T))
    (h : ∀ pc ∈ ws, pc = WorkerPc.recv ∨ pc = WorkerPc.done) : held ws = 0 := by
  unfold held
  have h1 : ws.map heldOf = ws.map (fun _ => (0 : Multiset T)) :=
    List.map_congr_left (fun pc hpc => by rcases h pc hpc with h2 | h2 <;> rw [h2] <;> rfl)
  rw [h1]
  simp

theorem mem_held {T : Type} (ws : List (WorkerPc T)) (w : Nat) (v : T)
    (hw : ws[w]? = some (WorkerPc.got v)) : v ∈ held ws := by
  have h := held_set ws w _ WorkerPc.done hw
  have h2 : v ∈ held (ws.set w WorkerPc.done) + heldOf (WorkerPc.got v) := by
    rw [Multiset.mem_add]
    right
    simp [heldOf]
  rw [h] at h2
  simpa [heldOf] using h2

theorem call_ix_zero {T E : Type} (p : Pipeline T E) (s : State T E) (hl : LaterIdle p s)
    (w : Nat) (v : T) (st : stageWrap T E) (hw : s.workers[w]? = some (WorkerPc.got v))
    (hs : p.stages[s.ix]? = some st) : s.ix = 0 := by
  by_contra h0
  have := (hl h0 (getElem?_lt _ _ _ hs)).1 _ (List.getElem?_mem hw)
  simp at this

theorem offerErr_take {E : Type} (errs fails : List E) (e : E)
    (h : errs = fails.take 64) : offerErr errs e = (fails ++ [e]).take 64 := by
  unfold offerErr
  have hl : errs.length = min 64 fails.length := by rw [h, List.length_take]
  split
  · rename_i hlt
    have h1 : fails.length < 64 := by omega
    rw [h, List.take_of_length_le (by omega), List.take_of_length_le (by simp; omega)]
  · rename_i hge
    have h1 : 64 ≤ fails.length := by omega
    rw [h, List.take_append_of_le_length h1]

theorem account_init {T E : Type} (p : Pipeline T E) (fn : StageFn T E) (xs : List T) :
    Account fn xs (initState p xs) := by
  refine ⟨?_, ?_, ?_, ?_⟩
  · have : held (initState p xs).workers = 0 := by
      apply held_idle
      intro pc hpc
      simp only [initState] at hpc
      split at hpc
      · exact Or.inl (List.eq_of_mem_replicate hpc)
      · simp at hpc
    rw [this]
    simp [initState]
  · intro _
    simp [initState, okCount]
  · intro h
    simp [initState] at h
  · simp [initState, failsOf]

theorem no_stage_absurd {T E : Type} (p : Pipeline T E) (s : State T E) (st0 : stageWrap T E)
    (hp : p.stages[0]? = some st0) (hr : s.ix = p.stages.length) (h0 : s.ix = 0) : False := by
  have := getElem?_lt _ _ _ hp
  omega

theorem account_mass_step {T E : Type} (p : Pipeline T E) (st0 : stageWrap T E) (xs : List T)
    (s s1 : State T E) (hp : p.stages[0]? = some st0) (hb : BasicInv p s) (hc : ClosedDone p s)
    (hi : Multiset.ofList (s.calls.map Prod.snd) + held s.workers + Multiset.ofList s.feed
      = Multiset.ofList xs)
    (h : Step p s s1) :
    Multiset.ofList (s1.calls.map Prod.snd) + held s1.workers + Multiset.ofList s1.feed
      = Multiset.ofList xs := by
  cases h with
  | workerRecvIn w v rest hr hw h0 hic hf =>
    have h1 := held_set s.workers w _ (WorkerPc.got v) hw
    simp only [heldOf, add_zero] at h1
    rw [hf, ← Multiset.cons_coe, ← Multiset.singleton_add] at hi
    simp only
    rw [h1, ← hi]
    abel
  | workerRecvCh w v rest hr hw h0 hf => simp [(hb.2.1 h0).2] at hf
  | workerEnd w hr hw he =>
    simp only
    rw [held_set_same _ _ _ WorkerPc.done hw rfl rfl]
    exact hi
  | workerCancelRecv w hr hc2 hw =>
    simp only
    rw [held_set_same _ _ _ WorkerPc.done hw rfl rfl]
    exact hi
  | workerCancelSend w res hr hc2 hw =>
    simp only
    rw [held_set_same _ _ _ WorkerPc.done hw rfl rfl]
    exact hi
  | workerCallErr w v st e hw hs hf =>
    have h1 := held_set s.workers w _
      (if p.errMode = ErrorMode.FailFast then WorkerPc.failing else WorkerPc.recv) hw
    have h2 : heldOf (if p.errMode = ErrorMode.FailFast then (WorkerPc.failing : WorkerPc T)
        else WorkerPc.recv) = 0 := by
      split <;> rfl
    rw [h2, add_zero] at h1
    simp only [heldOf] at h1
    simp only [List.map_append, List.map_cons, List.map_nil, ← Multiset.coe_add]
    rw [← hi, ← h1]
    rw [show (Multiset.ofList [v] : Multiset T) = {v} from rfl]
    abel
  | workerCallOk w v st res hw hs hf =>
    have h1 := held_set s.workers w _ (WorkerPc.send res) hw
    simp only [heldOf, add_zero] at h1
    simp only [List.map_append, List.map_cons, List.map_nil, ← Multiset.coe_add]
    rw [← hi, ← h1]
    rw [show (Multiset.ofList [v] : Multiset T) = {v} from rfl]
    abel
  | workerFail w hr hw =>
    simp only
    rw [held_set_same _ _ _ WorkerPc.done hw rfl rfl]
    exact hi
  | workerSendDirect w res hr hw hb2 =>
    simp only
    rw [held_set_same _ _ _ WorkerPc.recv hw rfl rfl]
    exact hi
  | workerSendBuf w res hr hw hb2 hroom =>
    simp only
    rw [held_set_same _ _ _ WorkerPc.recv hw rfl rfl]
    exact hi
  | finalNext st nxt hs hc2 hb2 hn =>
    have h1 : held s.workers = 0 := held_done _ (hc (getElem?_lt _ _ _ hs) hc2)
    have h2 : held (List.replicate nxt.conf.workers (WorkerPc.recv : WorkerPc T)) = 0 :=
      held_idle _ (fun pc hpc => Or.inl (List.eq_of_mem_replicate hpc))
    simp only
    rw [h2, ← hi, h1]
  | trailRecvIn v rest hr ht h0 hic hf => exact (no_stage_absurd p s st0 hp hr h0).elim
  | readOutIn v rest hr ho h0 hic hf => exact (no_stage_absurd p s st0 hp hr h0).elim
  | _ => exact hi

theorem stage_zero_eq {T E : Type} (p : Pipeline T E) (s : State T E) (st0 st : stageWrap T E)
    (hp : p.stages[0]? = some st0) (hs : p.stages[s.ix]? = some st) (h0 : s.ix = 0) :
    st = st0 := by
  rw [h0, hp] at hs
  exact (Option.some.inj hs).symm

theorem okCount_snoc {T E : Type} (fn : StageFn T E) (l : List T) (v : T) :
    okCount fn (l ++ [v]) = okCount fn l + (if succeeded fn v then 1 else 0) := by
  simp [okCount, List.countP_append, List.countP_cons]

theorem failsOf_snoc_err {T E : Type} (fn : StageFn T E) (l : List T) (v : T) (e : E)
    (hf : fn v = Except.error e) : failsOf fn (l ++ [v]) = failsOf fn l ++ [e] := by
  simp [failsOf, List.filterMap_append, hf]

theorem failsOf_snoc_ok {T E : Type} (fn : StageFn T E) (l : List T) (v res : T)
    (hf : fn v = Except.ok res) : failsOf fn (l ++ [v]) = failsOf fn l := by
  simp [failsOf, List.filterMap_append, hf]

theorem account_count_step {T E : Type} (p : Pipeline T E) (st0 : stageWrap T E)
    (s s1 : State T E) (hp : p.stages[0]? = some st0)
    (hi : s.ix = 0 → s.processed = okCount st0.fn (s.calls.map Prod.snd))
    (h : Step p s s1) :
    s1.ix = 0 → s1.processed = okCount st0.fn (s1.calls.map Prod.snd) := by
  cases h with
  | workerCallErr w v st e hw hs hf =>
    intro h0
    have hst := stage_zero_eq p s st0 st hp hs h0
    subst hst
    simp only [List.map_append, List.map_cons, List.map_nil, okCount_snoc, succeeded, hf]
    simpa using hi h0
  | workerCallOk w v st res hw hs hf =>
    intro h0
    have hst := stage_zero_eq p s st0 st hp hs h0
    subst hst
    simp only [List.map_append, List.map_cons, List.map_nil, okCount_snoc, succeeded, hf]
    simpa using hi h0
  | finalNext st nxt hs hc hb hn => exact fun h0 => absurd h0 (Nat.succ_ne_zero _)
  | finalLast st hs hc hb hn => exact fun h0 => absurd h0 (Nat.succ_ne_zero _)
  | _ => exact hi

theorem account_head_step {T E : Type} (p : Pipeline T E) (fn : StageFn T E)
    (s s1 : State T E) (hm : MetricsNamed p s) (hl : LaterIdle p s)
    (h2 : s.ix = 0 → s.processed = okCount fn (s.calls.map Prod.snd))
    (hi : s.ix ≠ 0 → ∃ m0, s.metrics.head? = some m0 ∧
      m0.ItemsProcessed = okCount fn (s.calls.map Prod.snd))
    (h : Step p s s1) :
    s1.ix ≠ 0 → ∃ m0, s1.metrics.head? = some m0 ∧
      m0.ItemsProcessed = okCount fn (s1.calls.map Prod.snd) := by
  have key : ∀ (st : stageWrap T E),
      ∃ m0, (s.metrics ++ [StageMetrics.mk st.conf.name s.processed]).head? = some m0 ∧
        m0.ItemsProcessed = okCount fn (s.calls.map Prod.snd) := by
    intro st
    by_cases h0 : s.ix = 0
    · rw [metrics_nil_of_zero p s hm h0]
      exact ⟨_, rfl, h2 h0⟩
    · obtain ⟨m0, hh, hc⟩ := hi h0
      refine ⟨m0, ?_, hc⟩
      rw [List.head?_append, hh]
      rfl
  cases h with
  | workerCallErr w v st e hw hs hf =>
    exact fun h0 => absurd (call_ix_zero p s hl w v st hw hs) h0
  | workerCallOk w v st res hw hs hf =>
    exact fun h0 => absurd (call_ix_zero p s hl w v st hw hs) h0
  | finalNext st nxt hs hc hb hn => exact fun _ => key st
  | finalLast st hs hc hb hn => exact fun _ => key st
  | _ => exact hi

theorem account_errs_step {T E : Type} (p : Pipeline T E) (st0 : stageWrap T E)
    (s s1 : State T E) (hp : p.stages[0]? = some st0) (hl : LaterIdle p s)
    (he : ErrDrained p s)
    (hi : s.errSeen ++ s.errs = (failsOf st0.fn (s.calls.map Prod.snd)).take 64)
    (h : Step p s s1) :
    s1.errSeen ++ s1.errs = (failsOf st0.fn (s1.calls.map Prod.snd)).take 64 := by
  cases h with
  | workerCallErr w v st e hw hs hf =>
    have h0 := call_ix_zero p s hl w v st hw hs
    have hst := stage_zero_eq p s st0 st hp hs h0
    subst hst
    have hseen := he.2 (getElem?_lt _ _ _ hs)
    rw [hseen, List.nil_append] at hi
    simp only [List.map_append, List.map_cons, List.map_nil]
    rw [hseen, List.nil_append, failsOf_snoc_err _ _ _ _ hf]
    exact offerErr_take _ _ _ hi
  | workerCallOk w v st res hw hs hf =>
    have h0 := call_ix_zero p s hl w v st hw hs
    have hst := stage_zero_eq p s st0 st hp hs h0
    subst hst
    simp only [List.map_append, List.map_cons, List.map_nil]
    rw [failsOf_snoc_ok _ _ _ _ hf]
    exact hi
  | readErr e rest hr hd he2 =>
    rw [he2] at hi
    simpa using hi
  | _ => exact hi

theorem account_step {T E : Type} (p : Pipeline T E) (st0 : stageWrap T E) (xs : List T)
    (s s1 : State T E) (hp : p.stages[0]? = some st0) (hs : ShapeInv p s)
    (hi : Account st0.fn xs s) (h : Step p s s1) : Account st0.fn xs s1 := by
  obtain ⟨a, b, c, _, _, _, g, k⟩ := hs
  obtain ⟨i1, i2, i3, i4⟩ := hi
  exact ⟨account_mass_step p st0 xs s s1 hp a g i1 h, account_count_step p st0 s s1 hp i2 h,
    account_head_step p st0.fn s s1 b c i2 i3 h, account_errs_step p st0 s s1 hp c k i4 h⟩

theorem execute_account {T E : Type} (sched : Nat → Nat) (p : Pipeline T E)
    (st0 : stageWrap T E) (xs : List T) (hp : p.stages[0]? = some st0) :
    ShapeInv p (execute sched p xs) ∧ Account st0.fn xs (execute sched p xs) :=
  execute_inv sched p xs (fun s => ShapeInv p s ∧ Account st0.fn xs s)
    (fun s s1 hi h => ⟨shape_step p s s1 hi.1 h, account_step p st0 xs s s1 hp hi.1 hi.2 h⟩)
    ⟨shape_init p xs, account_init p st0.fn xs⟩

theorem live_set {T : Type} (ws : List (WorkerPc T)) (w : Nat) (a b : WorkerPc T)
    (ic : Bool) (hw : ws[w]? = some a) (hb1 : b ≠ WorkerPc.failing)
    (hb2 : b = WorkerPc.done → ic = true)
    (c2 : ∀ pc ∈ ws, pc ≠ WorkerPc.failing)
    (c4 : (∃ pc ∈ ws, pc = WorkerPc.done) → ic = true) :
    (∀ pc ∈ ws.set w b, pc ≠ WorkerPc.failing) ∧
    ((∃ pc ∈ ws.set w b, pc = WorkerPc.done) → ic = true) ∧
    ws.set w b ≠ [] := by
  refine ⟨?_, ?_, ?_⟩
  · intro pc hpc
    rcases mem_set_cases _ _ _ _ hpc with h1 | h1
    · exact c2 pc h1
    · rw [h1]
      exact hb1
  · rintro ⟨pc, hpc, hd⟩
    rcases mem_set_cases _ _ _ _ hpc with h1 | h1
    · exact c4 ⟨pc, h1, hd⟩
    · exact hb2 (h1 ▸ hd)
  · intro hnil
    have h1 := getElem?_lt _ _ _ hw
    have h2 : (ws.set w b).length = 0 := by rw [hnil]; rfl
    rw [List.length_set] at h2
    omega

theorem firstLive_init {T E : Type} (p : Pipeline T E) (st0 : stageWrap T E) (xs : List T)
    (hp : p.stages[0]? = some st0) (hw : 0 < st0.conf.workers) :
    FirstLive (initState p xs) := by
  intro _
  simp only [initState, hp]
  refine ⟨trivial, ?_, ?_, ?_, ?_⟩
  · intro pc hpc
    rw [List.eq_of_mem_replicate hpc]
    simp
  · intro h
    cases h
  · rintro ⟨pc, hpc, hd⟩
    rw [List.eq_of_mem_replicate hpc] at hd
    cases hd
  · intro h
    have := congrArg List.length h
    simp at this
    omega

theorem firstLive_step {T E : Type} (p : Pipeline T E) (st0 : stageWrap T E) (xs : List T)
    (s s1 : State T E) (hp : p.stages[0]? = some st0)
    (hq : p.errMode = ErrorMode.Collect ∨ ∀ x ∈ xs, succeeded st0.fn x = true)
    (hm : Multiset.ofList (s.calls.map Prod.snd) + held s.workers + Multiset.ofList s.feed
      = Multiset.ofList xs)
    (hi : FirstLive s) (h : Step p s s1) : FirstLive s1 := by
  unfold FirstLive at hi ⊢
  cases h with
  | feederClose h1 h2 =>
    intro h0
    obtain ⟨c1, c2, c3, c4, c5⟩ := hi h0
    exact ⟨c1, c2, fun _ => h2, fun _ => rfl, c5⟩
  | workerRecvIn w v rest hr hw h0 hic hf =>
    intro _
    obtain ⟨c1, c2, c3, c4, c5⟩ := hi h0
    obtain ⟨d2, d4, d5⟩ := live_set s.workers w _ (WorkerPc.got v) s.inputClosed hw
      (by simp) (by simp) c2 c4
    refine ⟨c1, d2, fun h => ?_, d4, d5⟩
    rw [hic] at h
    cases h
  | workerRecvCh w v rest hr hw h0 hf => exact fun h => absurd h h0
  | workerEnd w hr hw he =>
    intro h0
    obtain ⟨c1, c2, c3, c4, c5⟩ := hi h0
    have hic : s.inputClosed = true := by
      unfold currEnded at he
      rw [if_pos h0] at he
      exact he
    obtain ⟨d2, d4, d5⟩ := live_set s.workers w _ WorkerPc.done s.inputClosed hw
      (by simp) (fun _ => hic) c2 c4
    exact ⟨c1, d2, c3, d4, d5⟩
  | workerCancelRecv w hr hc hw =>
    intro h0
    rw [(hi h0).1] at hc
    cases hc
  | workerCancelSend w res hr hc hw =>
    intro h0
    rw [(hi h0).1] at hc
    cases hc
  | workerCallErr w v st e hw hs hf =>
    intro h0
    obtain ⟨c1, c2, c3, c4, c5⟩ := hi h0
    have hst := stage_zero_eq p s st0 st hp hs h0
    subst hst
    have hmode : p.errMode = ErrorMode.Collect := by
      rcases hq with hq | hq
      · exact hq
      · have hv : v ∈ Multiset.ofList xs := by
          rw [← hm]
          exact Multiset.mem_add.2 (Or.inl (Multiset.mem_add.2 (Or.inr (mem_held _ _ _ hw))))
        have := hq v (by simpa using hv)
        simp [succeeded, hf] at this
    obtain ⟨d2, d4, d5⟩ := live_set s.workers w _
      (if p.errMode = ErrorMode.FailFast then WorkerPc.failing else WorkerPc.recv)
      s.inputClosed hw (by simp [hmode]) (by simp [hmode]) c2 c4
    exact ⟨c1, d2, c3, d4, d5⟩
  | workerCallOk w v st res hw hs hf =>
    intro h0
    obtain ⟨c1, c2, c3, c4, c5⟩ := hi h0
    obtain ⟨d2, d4, d5⟩ := live_set s.workers w _ (WorkerPc.send res) s.inputClosed hw
      (by simp) (by simp) c2 c4
    exact ⟨c1, d2, c3, d4, d5⟩
  | workerFail w hr hw =>
    intro h0
    exact absurd rfl ((hi h0).2.1 _ (List.getElem?_mem hw))
  | workerSendDirect w res hr hw hb =>
    intro h0
    obtain ⟨c1, c2, c3, c4, c5⟩ := hi h0
    obtain ⟨d2, d4, d5⟩ := live_set s.workers w _ WorkerPc.recv s.inputClosed hw
      (by simp) (by simp) c2 c4
    exact ⟨c1, d2, c3, d4, d5⟩
  | workerSendBuf w res hr hw hb hroom =>
    intro h0
    obtain ⟨c1, c2, c3, c4, c5⟩ := hi h0
    obtain ⟨d2, d4, d5⟩ := live_set s.workers w _ WorkerPc.recv s.inputClosed hw
      (by simp) (by simp) c2 c4
    exact ⟨c1, d2, c3, d4, d5⟩
  | finalNext st nxt hs hc hb hn => exact fun h0 => absurd h0 (Nat.succ_ne_zero _)
  | finalLast st hs hc hb hn => exact fun h0 => absurd h0 (Nat.succ_ne_zero _)
  | trailRecvIn v rest hr ht h0 hic hf => exact (no_stage_absurd p s st0 hp hr h0).elim
  | trailRecvCh v rest hr ht h0 hf => exact fun h => absurd h h0
  | trailEnd hr ht he => exact fun h0 => (no_stage_absurd p s st0 hp hr h0).elim
  | readOutIn v rest hr ho h0 hic hf => exact (no_stage_absurd p s st0 hp hr h0).elim
  | readOutCh v rest hr ho h0 hf => exact fun h => absurd h h0
  | _ => exact hi

theorem callsAll_step {T E : Type} (p : Pipeline T E) (xs : List T)
    (s s1 : State T E) (hl : LaterIdle p s) (hc : ClosedDone p s)
    (hm : Multiset.ofList (s.calls.map Prod.snd) + held s.workers + Multiset.ofList s.feed
      = Multiset.ofList xs)
    (hf : FirstLive s) (hi : CallsAll xs s) (h : Step p s s1) : CallsAll xs s1 := by
  unfold CallsAll at hi ⊢
  have key : ∀ (st : stageWrap T E), p.stages[s.ix]? = some st → s.out.closed = true →
      Multiset.ofList (s.calls.map Prod.snd) = Multiset.ofList xs := by
    intro st hs hcl
    by_cases h0 : s.ix = 0
    · obtain ⟨_, _, c3, c4, c5⟩ := hf h0
      have hd := hc (getElem?_lt _ _ _ hs) hcl
      obtain ⟨pc, hpc⟩ := List.exists_mem_of_ne_nil _ c5
      have hfeed := c3 (c4 ⟨pc, hpc, hd pc hpc⟩)
      rw [held_done _ hd, hfeed] at hm
      simpa using hm
    · exact hi h0
  cases h with
  | workerCallErr w v st e hw hs hf2 =>
    exact fun h0 => absurd (call_ix_zero p s hl w v st hw hs) h0
  | workerCallOk w v st res hw hs hf2 =>
    exact fun h0 => absurd (call_ix_zero p s hl w v st hw hs) h0
  | finalNext st nxt hs hcl hb hn => exact fun _ => key st hs hcl
  | finalLast st hs hcl hb hn => exact fun _ => key st hs hcl
  | _ => exact hi

/-- The invariants of a run whose first stage cannot take the FailFast branch. -/
theorem execute_full {T E : Type} (sched : Nat → Nat) (p : Pipeline T E)
    (st0 : stageWrap T E) (xs : List T) (hp : p.stages[0]? = some st0)
    (hw : 0 < st0.conf.workers)
    (hq : p.errMode = ErrorMode.Collect ∨ ∀ x ∈ xs, succeeded st0.fn x = true) :
    ShapeInv p (execute sched p xs) ∧ Account st0.fn xs (execute sched p xs) ∧
      CallsAll xs (execute sched p xs) := by
  have h := execute_inv sched p xs
    (fun s => (ShapeInv p s ∧ Account st0.fn xs s) ∧ FirstLive s ∧ CallsAll xs s)
    (fun s s1 hi h =>
      ⟨⟨shape_step p s s1 hi.1.1 h, account_step p st0 xs s s1 hp hi.1.1 hi.1.2 h⟩,
        firstLive_step p st0 xs s s1 hp hq hi.1.2.1 hi.2.1 h,
        callsAll_step p xs s s1 hi.1.1.2.2.1 hi.1.1.2.2.2.2.2.2.1 hi.1.2.1 hi.2.1 hi.2.2 h⟩)
    ⟨⟨shape_init p xs, account_init p st0.fn xs⟩, firstLive_init p st0 xs hp hw,
      fun h => absurd rfl h⟩
  exact ⟨h.1.1, h.1.2, h.2.2⟩

/-! ## Theorems: the results of Run -/

theorem finished_fields {T E : Type} (p : Pipeline T E) (s : State T E)
    (h : finished p s = true) :
    s.ix = p.stages.length ∧ s.trailingDone = true ∧ s.outDone = true ∧
      s.errDone = true := by
  simp only [finished, Bool.and_eq_true, decide_eq_true_eq] at h
  obtain ⟨⟨⟨h1, h2⟩, h3⟩, h4⟩ := h
  exact ⟨h1, h2, h3, h4⟩

theorem execute_ix {T E : Type} (sched : Nat → Nat) (p : Pipeline T E) (xs : List T) :
    (execute sched p xs).ix = p.stages.length :=
  (finished_fields p _ (execute_finished sched p xs)).1

theorem execute_errSeen {T E : Type} (sched : Nat → Nat) (p : Pipeline T E)
    (st0 : stageWrap T E) (xs : List T) (hp : p.stages[0]? = some st0) :
    (execute sched p xs).errSeen
      = (failsOf st0.fn ((execute sched p xs).calls.map Prod.snd)).take 64 := by
  obtain ⟨hs, ha⟩ := execute_account sched p st0 xs hp
  have hd := (finished_fields p _ (execute_finished sched p xs)).2.2.2
  have he := (hs.2.2.2.2.2.2.2.1 hd).1
  have h4 := ha.2.2.2
  rw [he, List.append_nil] at h4
  exact h4

theorem execute_outSeen {T E : Type} (sched : Nat → Nat) (p : Pipeline T E) (xs : List T)
    (hp : p.stages ≠ []) : (execute sched p xs).outSeen = [] :=
  (execute_shape sched p xs).2.2.2.2.2.1 hp

theorem execute_names {T E : Type} (sched : Nat → Nat) (p : Pipeline T E) (xs : List T) :
    (execute sched p xs).metrics.map (fun m => m.Name)
      = p.stages.map (fun st => st.conf.name) := by
  have h := (execute_shape sched p xs).2.1
  unfold MetricsNamed at h
  rw [execute_ix, List.take_length] at h
  exact h

theorem failsOf_mem {T E : Type} (fn : StageFn T E) (l : List T) (e : E)
    (h : e ∈ failsOf fn l) : ∃ v ∈ l, fn v = Except.error e := by
  unfold failsOf at h
  obtain ⟨v, hv, hf⟩ := List.mem_filterMap.1 h
  refine ⟨v, hv, ?_⟩
  cases hfn : fn v with
  | error e2 =>
    rw [hfn] at hf
    simp only [Option.some.injEq] at hf
    rw [hf]
  | ok res =>
    rw [hfn] at hf
    cases hf

theorem failsOf_eq_nil {T E : Type} (fn : StageFn T E) (l : List T)
    (h : ∀ x ∈ l, succeeded fn x = true) : failsOf fn l = [] := by
  rw [List.eq_nil_iff_forall_not_mem]
  intro e he
  obtain ⟨v, hv, hf⟩ := failsOf_mem fn l e he
  have := h v hv
  simp [succeeded, hf] at this

theorem okCount_add_fails {T E : Type} (fn : StageFn T E) (l : List T) :
    okCount fn l + (failsOf fn l).length = l.length := by
  induction l with
  | nil => rfl
  | cons a rest ih =>
    have h1 : okCount fn (a :: rest) = okCount fn rest + (if succeeded fn a then 1 else 0) := by
      simp [okCount, List.countP_cons]
    cases hf : fn a with
    | error e =>
      have hs : succeeded fn a = false := by simp [succeeded, hf]
      have h2 : failsOf fn (a :: rest) = e :: failsOf fn rest := by
        simp [failsOf, List.filterMap_cons, hf]
      rw [h1, h2, hs]
      simp only [List.length_cons, Bool.false_eq_true, if_false]
      omega
    | ok res =>
      have hs : succeeded fn a = true := by simp [succeeded, hf]
      have h2 : failsOf fn (a :: rest) = failsOf fn rest := by
        simp [failsOf, List.filterMap_cons, hf]
      rw [h1, h2, hs]
      simp only [List.length_cons, if_true]
      omega

theorem okCount_all {T E : Type} (fn : StageFn T E) (l : List T)
    (h : ∀ x ∈ l, succeeded fn x = true) : okCount fn l = l.length := by
  have h1 := okCount_add_fails fn l
  rw [failsOf_eq_nil fn l h] at h1
  simpa using h1

theorem single_stage_get {T E : Type} (p : Pipeline T E) (st : stageWrap T E)
    (hp : p.stages = [st]) : p.stages[0]? = some st ∧ p.stages.length = 1 := by
  rw [hp]
  exact ⟨rfl, rfl⟩

/-- The whole result of a run of a single-stage pipeline whose stage cannot take the
FailFast branch: nothing on `Out`, the first 64 errors of some ordering of the input,
one metrics entry counting the successes. -/
theorem single_stage_result {T E : Type} (sched : Nat → Nat) (p : Pipeline T E)
    (st : stageWrap T E) (xs : List T) (hp : p.stages = [st]) (hw : 0 < st.conf.workers)
    (hq : p.errMode = ErrorMode.Collect ∨ ∀ x ∈ xs, succeeded st.fn x = true) :
    ∃ order : List T, order.Perm xs ∧
      p.Run sched xs = some
        { Out := []
          Errors := ((failsOf st.fn order).take 64).map some
          metrics := [{ Name := st.conf.name, ItemsProcessed := okCount st.fn xs }] } := by
  obtain ⟨hp0, hlen⟩ := single_stage_get p st hp
  obtain ⟨hs, ha, hc⟩ := execute_full sched p st xs hp0 hw hq
  have hix := execute_ix sched p xs
  have hne : (execute sched p xs).ix ≠ 0 := by omega
  have hperm : ((execute sched p xs).calls.map Prod.snd).Perm xs :=
    Multiset.coe_eq_coe.1 (hc hne)
  refine ⟨(execute sched p xs).calls.map Prod.snd, hperm, ?_⟩
  rw [Run_eq, execute_errSeen sched p st xs hp0,
    execute_outSeen sched p xs (by rw [hp]; simp)]
  have hn := execute_names sched p xs
  rw [hp] at hn
  obtain ⟨m0, hh, hcount⟩ := ha.2.2.1 hne
  have hm : (execute sched p xs).metrics
      = [{ Name := st.conf.name, ItemsProcessed := okCount st.fn xs }] := by
    cases hmet : (execute sched p xs).metrics with
    | nil => rw [hmet] at hh; cases hh
    | cons a rest =>
      rw [hmet] at hh hn
      simp only [List.head?_cons, Option.some.injEq] at hh
      simp only [List.map_cons, List.map_nil, List.cons.injEq, List.map_eq_nil_iff] at hn
      obtain ⟨hname, hrest⟩ := hn
      subst hh
      rw [hrest]
      have hcnt : a.ItemsProcessed = okCount st.fn xs := by
        rw [hcount]
        exact List.Perm.countP_eq _ hperm
      cases a
      simp_all
  rw [hm]

theorem failsOf_perm {T E : Type} (fn : StageFn T E) (l1 l2 : List T) (h : l1.Perm l2) :
    (failsOf fn l1).Perm (failsOf fn l2) :=
  List.Perm.filterMap _ h

theorem stage_names_result {T E : Type} (sched : Nat → Nat) (p : Pipeline T E) (xs : List T) :
    ∃ r, p.Run sched xs = some r ∧ r.DrainMetrics.length = p.stages.length ∧
      r.DrainMetrics.map (fun m => m.Name) = p.stages.map (fun st => st.conf.name) := by
  refine ⟨_, Run_eq sched p xs, ?_, execute_names sched p xs⟩
  have h := congrArg List.length (execute_names sched p xs)
  simpa using h

/-- The result of a run whose first stage never fails: nothing on `Out` and nothing
on `Errors`, whatever the later stages are. -/
theorem drain_nothing {T E : Type} (sched : Nat → Nat) (p : Pipeline T E)
    (st0 : stageWrap T E) (xs : List T) (hp : p.stages[0]? = some st0)
    (hok : ∀ x, succeeded st0.fn x = true) :
    ∃ r, p.Run sched xs = some r ∧ r.Out = [] ∧ r.Errors = [] := by
  refine ⟨_, Run_eq sched p xs, ?_, ?_⟩
  · apply execute_outSeen
    intro h
    rw [h] at hp
    cases hp
  · simp only
    rw [execute_errSeen sched p st0 xs hp, failsOf_eq_nil _ _ (fun x _ => hok x)]
    rfl

/-- C4: a single-stage pipeline with at least one worker, in Collect mode or with a
stage function that succeeds on every input item, returns from Run under every
interleaving with exactly one metrics entry, carrying the configured stage name and
an ItemsProcessed equal to the number of input items on which the stage function
succeeded: the input length minus the number of failures, and the input length when
nothing fails. -/
theorem metrics_single_stage {T E : Type} (sched : Nat → Nat) (p : Pipeline T E)
    (st : stageWrap T E) (xs : List T) (hp : p.stages = [st]) (hw : 0 < st.conf.workers)
    (hq : p.errMode = ErrorMode.Collect ∨ ∀ x ∈ xs, succeeded st.fn x = true) :
    ∃ r, p.Run sched xs = some r ∧
      r.DrainMetrics = [{ Name := st.conf.name, ItemsProcessed := okCount st.fn xs }] ∧
      okCount st.fn xs = xs.length - (failsOf st.fn xs).length ∧
      ((∀ x ∈ xs, succeeded st.fn x = true) → okCount st.fn xs = xs.length) := by
  obtain ⟨order, _, hr⟩ := single_stage_result sched p st xs hp hw hq
  refine ⟨_, hr, rfl, ?_, okCount_all st.fn xs⟩
  have := okCount_add_fails st.fn xs
  omega

/-- C4 witness: TestPipeline_Metrics, one stage named inc over [1, 2, 3], reports one
entry with 3 items. -/
theorem metrics_single_stage_witness :
    ∃ r, (metricsPipeline 4).Run (fun _ => 0) [1, 2, 3] = some r ∧
      r.DrainMetrics = [{ Name := "inc", ItemsProcessed := 3 }] ∧
      3 = 3 - 0 ∧
      ((∀ x ∈ [(1 : Int), 2, 3], succeeded inc x = true) → 3 = 3) :=
  metrics_single_stage (fun _ => 0) (metricsPipeline 4)
    { fn := inc, conf := { workers := 4, name := "inc" } } [1, 2, 3] rfl (by decide)
    (Or.inr (by decide))

/-- C5: under every interleaving and for every worker count, the metrics of the Result
have exactly one entry per stage, named in stage declaration order; a second Run on
the same pipeline yields again exactly one entry per stage. -/
theorem metrics_in_stage_order {T E : Type} (sched sched2 : Nat → Nat) (p : Pipeline T E)
    (xs ys : List T) :
    (∃ r, p.Run sched xs = some r ∧ r.DrainMetrics.length = p.stages.length ∧
      r.DrainMetrics.map (fun m => m.Name) = p.stages.map (fun st => st.conf.name)) ∧
    (∃ r2, (p.afterRun sched xs).Run sched2 ys = some r2 ∧
      r2.DrainMetrics.length = p.stages.length ∧
      r2.DrainMetrics.map (fun m => m.Name) = p.stages.map (fun st => st.conf.name)) :=
  ⟨stage_names_result sched p xs, stage_names_result sched2 (p.afterRun sched xs) ys⟩

/-- C9: in Collect mode a single-stage pipeline with at least one worker returns from
Run under every interleaving, and its error stream holds exactly min(M, 64) errors,
M being the number of input items on which the stage function fails; every error on
the stream is one the stage function returned for an input item; the stream is the
first 64 failures of some ordering of the input, so with M at most 64 every failure
is on it. -/
theorem collect_errors_bounded {T E : Type} (sched : Nat → Nat) (p : Pipeline T E)
    (st : stageWrap T E) (xs : List T) (hp : p.stages = [st]) (hw : 0 < st.conf.workers)
    (hm : p.errMode = ErrorMode.Collect) :
    ∃ r, p.Run sched xs = some r ∧
      r.Errors.length = min (failsOf st.fn xs).length 64 ∧
      (∀ e ∈ r.Errors, ∃ x ∈ xs, ∃ err, e = some err ∧ st.fn x = Except.error err) ∧
      (∃ order : List T, order.Perm xs ∧
        r.Errors = ((failsOf st.fn order).take 64).map some) ∧
      ((failsOf st.fn xs).length ≤ 64 → (r.Errors.filterMap id).Perm (failsOf st.fn xs)) := by
  obtain ⟨order, hperm, hr⟩ := single_stage_result sched p st xs hp hw (Or.inl hm)
  have hfp := failsOf_perm st.fn order xs hperm
  have hlen := hfp.length_eq
  refine ⟨_, hr, ?_, ?_, ⟨order, hperm, rfl⟩, ?_⟩
  · simp only [List.length_map, List.length_take]
    omega
  · intro e he
    simp only [List.mem_map] at he
    obtain ⟨err, herr, rfl⟩ := he
    obtain ⟨v, hv, hf⟩ := failsOf_mem st.fn order err (List.mem_of_mem_take herr)
    exact ⟨v, hperm.mem_iff.1 hv, err, rfl, hf⟩
  · intro hle
    simp only
    rw [filterMap_id_map_some, List.take_of_length_le (by omega)]
    exact hfp

/-- C9 witness: TestPipeline_Collect, fail-if-even over [1, 2, 3, 4, 5], puts exactly
two errors on the stream. -/
theorem collect_errors_bounded_witness :
    ∃ r, (collectPipeline 4).Run (fun _ => 0) [1, 2, 3, 4, 5] = some r ∧
      r.Errors.length = min 2 64 ∧
      (∀ e ∈ r.Errors, ∃ x ∈ [(1 : Int), 2, 3, 4, 5], ∃ err,
        e = some err ∧ failIfEven x = Except.error err) ∧
      (∃ order : List Int, order.Perm [1, 2, 3, 4, 5] ∧
        r.Errors = ((failsOf failIfEven order).take 64).map some) ∧
      (2 ≤ 64 → (r.Errors.filterMap id).Perm ["bad 2", "bad 4"]) :=
  collect_errors_bounded (fun _ => 0) (collectPipeline 4)
    { fn := failIfEven, conf := { workers := 4, name := "stage#0" } } [1, 2, 3, 4, 5] rfl
    (by decide) rfl

/-- In either error mode, a failure of the first stage's function on a value it was
called with puts a non-nil error on the error stream: FirstError is non-nil. -/
theorem first_stage_failure_reported {T E : Type} (sched : Nat → Nat) (p : Pipeline T E)
    (st0 : stageWrap T E) (xs : List T) (v : T) (e : E) (hp : p.stages[0]? = some st0)
    (hcall : v ∈ (execute sched p xs).calls.map Prod.snd)
    (hf : st0.fn v = Except.error e) :
    ∃ r, p.Run sched xs = some r ∧ FirstError r.Errors ≠ none := by
  refine ⟨_, Run_eq sched p xs, ?_⟩
  simp only
  rw [execute_errSeen sched p st0 xs hp]
  have hmem : e ∈ failsOf st0.fn ((execute sched p xs).calls.map Prod.snd) := by
    unfold failsOf
    exact List.mem_filterMap.2 ⟨v, hcall, by rw [hf]⟩
  cases hl : failsOf st0.fn ((execute sched p xs).calls.map Prod.snd) with
  | nil => rw [hl] at hmem; cases hmem
  | cons a rest => simp [FirstError]

theorem advance_drained {T E : Type} (p : Pipeline T E) (s s1 : State T E)
    (h : Step p s s1) (hne : s1.ix ≠ s.ix) :
    s.out.closed = true ∧ s.out.buf = [] ∧ s1.curr = s.out := by
  cases h with
  | finalNext st nxt hs hc hb hn => exact ⟨hc, hb, rfl⟩
  | finalLast st hs hc hb hn => exact ⟨hc, hb, rfl⟩
  | _ => exact absurd rfl hne

/-- C10: with at least one stage, the loop of RunChan moves past a stage only from a
state in which that stage's `out` is closed and empty, and `curr` becomes that
channel; so whenever RunChan has returned, the channel it returns as `Out` is closed
and empty. Under every interleaving Run returns, the caller receives nothing from
`Out`, Drain returns zero items, every stage-function call was made by stage 0, and
every metrics entry after the first has ItemsProcessed 0. -/
theorem later_stages_starved {T E : Type} (sched : Nat → Nat) (p : Pipeline T E)
    (xs : List T) (hp : p.stages ≠ []) :
    (∀ s e s1, step p s e = some s1 → s1.ix ≠ s.ix →
      s.out.closed = true ∧ s.out.buf = [] ∧ s1.curr = s.out) ∧
    (∀ n, (runFor p sched n (initState p xs)).ix = p.stages.length →
      (runFor p sched n (initState p xs)).curr.closed = true ∧
      (runFor p sched n (initState p xs)).curr.buf = []) ∧
    ∃ r, p.Run sched xs = some r ∧ r.Out = [] ∧ r.Drain.1 = [] ∧
      (∀ c ∈ (execute sched p xs).calls, c.1 = 0) ∧
      (∀ m ∈ r.DrainMetrics.drop 1, m.ItemsProcessed = 0) := by
  have hs := execute_shape sched p xs
  refine ⟨fun s e s1 h hne => advance_drained p s s1 (step_sound p s s1 e h) hne, ?_,
    _, Run_eq sched p xs, execute_outSeen sched p xs hp, execute_outSeen sched p xs hp,
    hs.2.2.2.1, hs.2.2.2.2.1⟩
  intro n hn
  have hb := runFor_inv p sched (BasicInv p) (basic_step p) n _ (basic_init p xs)
  apply hb.2.1
  rw [hn]
  exact fun h => hp (List.length_eq_zero.1 h)

/-- C10 witness: TestPipeline_Basic, two stages over [1, 2, 3, 4]. -/
theorem later_stages_starved_witness :
    (∀ s e s1, step (basicPipeline 4) s e = some s1 → s1.ix ≠ s.ix →
      s.out.closed = true ∧ s.out.buf = [] ∧ s1.curr = s.out) ∧
    (∀ n, (runFor (basicPipeline 4) (fun _ => 0) n (initState (basicPipeline 4) [1, 2, 3, 4])).ix
        = (basicPipeline 4).stages.length →
      (runFor (basicPipeline 4) (fun _ => 0) n
        (initState (basicPipeline 4) [1, 2, 3, 4])).curr.closed = true ∧
      (runFor (basicPipeline 4) (fun _ => 0) n
        (initState (basicPipeline 4) [1, 2, 3, 4])).curr.buf = []) ∧
    ∃ r, (basicPipeline 4).Run (fun _ => 0) [1, 2, 3, 4] = some r ∧ r.Out = [] ∧
      r.Drain.1 = [] ∧
      (∀ c ∈ (execute (fun _ => 0) (basicPipeline 4) [1, 2, 3, 4]).calls, c.1 = 0) ∧
      (∀ m ∈ r.DrainMetrics.drop 1, m.ItemsProcessed = 0) :=
  later_stages_starved (fun _ => 0) (basicPipeline 4) [1, 2, 3, 4] (by simp [basicPipeline,
    Pipeline.AddStage])

/-- C1, the run of TestPipeline_Basic (double then plus1 over [1, 2, 3, 4], buffer 8):
under every interleaving Drain returns no item and no error, where the test expects
the items 3, 5, 7, 9. -/
theorem basic_test_drains_nothing (sched : Nat → Nat) (procs : Nat) :
    ∃ r, (basicPipeline procs).Run sched [1, 2, 3, 4] = some r ∧
      r.Drain = ([], none) ∧ Multiset.ofList r.Drain.1 ≠ {3, 5, 7, 9} := by
  obtain ⟨r, hr, ho, he⟩ := drain_nothing sched (basicPipeline procs)
    { fn := double, conf := { workers := 2, name := "double" } } [1, 2, 3, 4] rfl
    (fun _ => rfl)
  refine ⟨r, hr, ?_, ?_⟩
  · simp [Result.Drain, ho, he, FirstError]
  · simp only [Result.Drain, ho]
    decide

/-- C2, the run of TestPipeline_Collect (fail-if-even over [1, 2, 3, 4, 5], Collect):
under every interleaving `Out` yields no item, where the claim expects 5 - 2 = 3; the
joined error is non-nil as claimed. -/
theorem collect_test_outputs_nothing (sched : Nat → Nat) (procs : Nat) :
    ∃ r, (collectPipeline (procs + 1)).Run sched [1, 2, 3, 4, 5] = some r ∧
      r.Out.length = 0 ∧ r.Out.length ≠ 5 - 2 ∧ JoinErrors r.Errors ≠ none := by
  obtain ⟨order, hperm, hr⟩ := single_stage_result sched (collectPipeline (procs + 1))
    { fn := failIfEven, conf := { workers := procs + 1, name := "stage#0" } } [1, 2, 3, 4, 5]
    rfl (Nat.succ_pos procs) (Or.inl rfl)
  refine ⟨_, hr, rfl, by simp, ?_⟩
  have hlen := (failsOf_perm failIfEven order [1, 2, 3, 4, 5] hperm).length_eq
  have h2 : (failsOf failIfEven [1, 2, 3, 4, 5]).length = 2 := by decide
  simp only
  rw [JoinErrors_eq, filterMap_id_map_some, List.length_take]
  rw [if_neg (by omega)]
  simp

/-- C3, the run of TestPipeline_FailFast (identity, then a stage failing on 3, over
[1, 2, 3, 4, 5, 6], FailFast): under every interleaving FirstError of the error
stream is nil, where the test expects a non-nil error. -/
theorem failfast_test_reports_nothing (sched : Nat → Nat) (procs : Nat) :
    ∃ r, (failFastPipeline procs).Run sched [1, 2, 3, 4, 5, 6] = some r ∧
      FirstError r.Errors = none := by
  obtain ⟨r, hr, _, he⟩ := drain_nothing sched (failFastPipeline procs)
    { fn := identity, conf := { workers := procs, name := "stage#0" } } [1, 2, 3, 4, 5, 6] rfl
    (fun _ => rfl)
  exact ⟨r, hr, by rw [he]; rfl⟩

end Gopipe
